import Mathlib

/-!
# Verification of the `trading_engine` limit-order matching engine

Shallow embedding of `src/lib.rs` (crate `trading_engine`).

Modelling conventions:

* `rust_decimal::Decimal` is an exact decimal number; the operations the code
  uses (`min`, `-`, `+`/`sum`, comparisons) are exact, and
  `to_string`/`from_str` round-trip exactly.  We model decimal values as `ℚ`.
* Prices and amounts cross the boundary as text (`String` fields); text either
  parses to an exact decimal or fails.  We model such a field as `DecText`:
  either a value (`num q`, standing for text that `Decimal::from_str` accepts,
  and for any text produced by `Decimal::to_string`) or unparseable text
  (`bad s`).  `DecText.parse` models `Decimal::from_str`.
* All `.unwrap()` calls on parse results are modelled by `Option`: a function
  returns `none` exactly when the Rust code would panic.
* `BTreeMap<Decimal, Vec<Order>>` is modelled as an association list
  `List (ℚ × List Order)` kept in ascending key order (the map's iteration
  order); `mapGet`/`mapSet`/`mapRemove`/`mapPush` model
  `get_mut`, in-place update, `remove`, and `entry(..).or_insert(..).push(..)`.
* `Uuid::new_v4()` and `SystemTime::now()` are external nondeterminism the
  claims never constrain; trade ids and timestamps are modelled as constants.
-/

set_option linter.unusedVariables false

namespace TradingEngine

/-- A price/amount text field: either text that parses to the exact decimal
`q`, or unparseable text `s`. -/
inductive DecText where
  | num (q : ℚ)
  | bad (s : String)
deriving DecidableEq

/-- `Decimal::from_str` on a text field. -/
def DecText.parse : DecText → Option ℚ
  | .num q => some q
  | .bad _ => none

/-- `Order` from `src/lib.rs` (the `serde` attributes are serialization-only). -/
structure Order where
  type_op : String
  account_id : String
  amount : DecText
  order_id : String
  pair : String
  limit_price : DecText
  side : String
  timestamp : Nat
deriving DecidableEq

/-- `Trade` from `src/lib.rs`.  Its `price` and `amount` fields are rendered
with `Decimal::to_string` in the source; since rendering round-trips exactly
we keep the decimal values. -/
structure Trade where
  trade_id : String
  taker_order_id : String
  maker_order_id : String
  pair : String
  price : ℚ
  amount : ℚ
  timestamp : Nat
deriving DecidableEq

/-- One price level of a side of the book: the `BTreeMap` key together with
the `Vec<Order>` resting there. -/
abbrev Level := ℚ × List Order

/-- `OrderBook` from `src/lib.rs`; both sides are `BTreeMap`s represented in
ascending-key iteration order. -/
structure OrderBook where
  bids : List Level
  asks : List Level
  trades : List Trade
deriving DecidableEq

/-- `OrderBook::new`. -/
def OrderBook.new : OrderBook := ⟨[], [], []⟩

/-- `BTreeMap` lookup (`get`/`get_mut`) by exact key. -/
def mapGet : List Level → ℚ → Option (List Order)
  | [], _ => none
  | (q, os) :: rest, p => if p = q then some os else mapGet rest p

/-- Writing a new `Vec` through a `get_mut` reference: replaces the value at
key `p` when present, inserts nothing otherwise. -/
def mapSet : List Level → ℚ → List Order → List Level
  | [], _, _ => []
  | (q, os) :: rest, p, v => if p = q then (q, v) :: rest else (q, os) :: mapSet rest p v

/-- `BTreeMap::remove`. -/
def mapRemove : List Level → ℚ → List Level
  | [], _ => []
  | (q, os) :: rest, p => if p = q then rest else (q, os) :: mapRemove rest p

/-- `map.entry(price).or_insert_with(Vec::new).push(order)`: appends at the
end of the level's sequence, creating the level at its sorted position when
absent. -/
def mapPush : List Level → ℚ → Order → List Level
  | [], p, o => [(p, [o])]
  | (q, os) :: rest, p, o =>
    if p < q then (p, [o]) :: (q, os) :: rest
    else if p = q then (q, os ++ [o]) :: rest
    else (q, os) :: mapPush rest p o

/-- Building the `Trade` record (lines 117–125 / 206–214 of `src/lib.rs`).
`Uuid::new_v4()` and `get_current_timestamp()` are external; the claims never
constrain them, so they are modelled as constants. -/
def mkTrade (takerId makerId pairName : String) (price amount : ℚ) : Trade :=
  { trade_id := ""
    taker_order_id := takerId
    maker_order_id := makerId
    pair := pairName
    price := price
    amount := amount
    timestamp := 0 }

/-- Inner loop of `match_buy_order` over the orders of one ask level
(lines 108–141).  Returns the trades emitted, the level's order list after
in-place partial fills, the ids of fully filled orders pushed to
`orders_to_update`, and the taker's remaining amount. -/
def matchAskOrders (takerId pairName : String) (price : ℚ) :
    ℚ → List Order → Option (List Trade × List Order × List String × ℚ)
  | r, [] => some ([], [], [], r)
  | r, o :: os =>
    if r ≤ 0 then some ([], o :: os, [], r)
    else
      match o.amount.parse with
      | none => none
      | some a =>
        let t := min r a
        let trade := mkTrade takerId o.order_id pairName price t
        if t < a then
          match matchAskOrders takerId pairName price (r - t) os with
          | none => none
          | some (ts, os2, ids, r2) =>
            some (trade :: ts, { o with amount := DecText.num (a - t) } :: os2, ids, r2)
        else
          match matchAskOrders takerId pairName price (r - t) os with
          | none => none
          | some (ts, os2, ids, r2) =>
            some (trade :: ts, o :: os2, o.order_id :: ids, r2)

/-- `ask_orders.iter().all(|o| Decimal::from_str(&o.amount).unwrap() <= ZERO)`
(line 145–147), including the possible panic on unparseable text. -/
def levelDrained : List Order → Option Bool
  | [] => some true
  | o :: os =>
    match o.amount.parse with
    | none => none
    | some a => if a ≤ 0 then levelDrained os else some false

/-- The full level-removal test of lines 144–148:
`ask_orders.is_empty() || ask_orders.iter().all(.. <= ZERO)`, with `||`
short-circuiting before any parse. -/
def drainedCheck (os : List Order) : Option Bool :=
  if os.isEmpty then some true else levelDrained os

/-- Outer loop of `match_buy_order` over ask levels in ascending price order
(lines 103–151), breaking at the first level priced above the buy limit.
Also returns the `asks_to_remove` prices found during the sweep and the
`orders_to_update` list of `(price, order_id)` pairs. -/
def matchAskLevels (takerId pairName : String) (buyPrice : ℚ) :
    ℚ → List Level → Option (List Trade × List Level × List ℚ × List (ℚ × String) × ℚ)
  | r, [] => some ([], [], [], [], r)
  | r, (p, os) :: rest =>
    if buyPrice < p then some ([], (p, os) :: rest, [], [], r)
    else
      match matchAskOrders takerId pairName p r os with
      | none => none
      | some (ts, os2, ids, r2) =>
        match drainedCheck os2 with
        | none => none
        | some drained =>
          match matchAskLevels takerId pairName buyPrice r2 rest with
          | none => none
          | some (ts3, rest3, removes3, updates3, r3) =>
            some (ts ++ ts3, (p, os2) :: rest3,
                  (if drained then [p] else []) ++ removes3,
                  ids.map (fun i => (p, i)) ++ updates3, r3)

/-- "Remove filled orders" post-pass of `match_buy_order` (lines 154–161):
for each `(price, order_id)` in `orders_to_update`, retain the other orders
at that level, recording prices of levels that became empty. -/
def removeFilledOrders : List Level → List (ℚ × String) → List Level × List ℚ
  | asks, [] => (asks, [])
  | asks, (p, oid) :: rest =>
    match mapGet asks p with
    | none => removeFilledOrders asks rest
    | some os =>
      let os2 := os.filter (fun o => decide (o.order_id ≠ oid))
      let next := removeFilledOrders (mapSet asks p os2) rest
      if os2.isEmpty then (next.1, p :: next.2) else next

/-- "Remove empty price levels" (lines 164–166). -/
def removePriceLevels : List Level → List ℚ → List Level
  | m, [] => m
  | m, p :: ps => removePriceLevels (mapRemove m p) ps

/-- `OrderBook::match_buy_order` (lines 94–169). -/
def OrderBook.match_buy_order (book : OrderBook) (order : Order) :
    Option (OrderBook × List Trade) :=
  match order.amount.parse with
  | none => none
  | some remaining =>
    match order.limit_price.parse with
    | none => none
    | some buyPrice =>
      match matchAskLevels order.order_id order.pair buyPrice remaining book.asks with
      | none => none
      | some (trades, asks1, removes1, updates1, _) =>
        let pass := removeFilledOrders asks1 updates1
        let asks3 := removePriceLevels pass.1 (removes1 ++ pass.2)
        some ({ book with asks := asks3 }, trades)

/-- Insert one level into a list sorted by descending price, used to model
`bids_to_process.sort_by(|a, b| price_b.cmp(price_a))` (line 185). -/
def insertLevelDesc (x : Level) : List Level → List Level
  | [] => [x]
  | y :: ys => if y.1 < x.1 then x :: y :: ys else y :: insertLevelDesc x ys

/-- Sorting the snapshot of eligible bid levels by descending price. -/
def sortLevelsDesc : List Level → List Level
  | [] => []
  | x :: xs => insertLevelDesc x (sortLevelsDesc xs)

/-- The write-through of one match into the live bid level (lines 222–235):
find the first order with the maker's id, update its amount in place on a
partial fill, or record its id in `orders_to_update` on a complete fill. -/
def writeBackBid : List Order → String → ℚ → ℚ → List Order × List String
  | [], _, _, _ => ([], [])
  | o :: os, oid, t, b =>
    if o.order_id = oid then
      if t < b then ({ o with amount := DecText.num (b - t) } :: os, [])
      else (o :: os, [oid])
    else
      let next := writeBackBid os oid t b
      (o :: next.1, next.2)

/-- Inner loop of `match_sell_order` over one snapshotted bid level
(lines 195–236), threading the live `bids` map and the level-local
`orders_to_update` marks. -/
def matchBidOrders (takerId pairName : String) (price : ℚ) :
    ℚ → List Order → List Level → List String →
    Option (List Trade × List Level × List String × ℚ)
  | r, [], bids, marks => some ([], bids, marks, r)
  | r, bo :: bos, bids, marks =>
    if r ≤ 0 then some ([], bids, marks, r)
    else
      match bo.amount.parse with
      | none => none
      | some b =>
        let t := min r b
        let trade := mkTrade takerId bo.order_id pairName price t
        let step :=
          match mapGet bids price with
          | none => (bids, marks)
          | some os =>
            let wb := writeBackBid os bo.order_id t b
            (mapSet bids price wb.1, marks ++ wb.2)
        match matchBidOrders takerId pairName price (r - t) bos step.1 step.2 with
        | none => none
        | some (ts, bids2, marks2, r2) => some (trade :: ts, bids2, marks2, r2)

/-- End-of-level cleanup of `match_sell_order` (lines 239–244): retain the
orders not marked in `orders_to_update`, and drop the level if it became
empty. -/
def retainLevel (bids1 : List Level) (p : ℚ) (marks : List String) : List Level :=
  match mapGet bids1 p with
  | none => bids1
  | some os =>
    let os2 := os.filter (fun o => decide (o.order_id ∉ marks))
    if os2.isEmpty then mapRemove bids1 p else mapSet bids1 p os2

/-- Outer loop of `match_sell_order` over the snapshotted bid levels in
descending price order (lines 188–245), with the per-level retain and
empty-level removal (lines 239–244). -/
def matchBidLevels (takerId pairName : String) :
    ℚ → List Level → List Level → Option (List Trade × List Level × ℚ)
  | r, [], bids => some ([], bids, r)
  | r, (p, sos) :: rest, bids =>
    if r ≤ 0 then some ([], bids, r)
    else
      match matchBidOrders takerId pairName p r sos bids [] with
      | none => none
      | some (ts, bids1, marks, r1) =>
        match matchBidLevels takerId pairName r1 rest (retainLevel bids1 p marks) with
        | none => none
        | some (ts3, bids3, r3) => some (ts ++ ts3, bids3, r3)

/-- `OrderBook::match_sell_order` (lines 171–248): snapshot the bid levels at
or above the sell limit, sort them by descending price, then sweep. -/
def OrderBook.match_sell_order (book : OrderBook) (order : Order) :
    Option (OrderBook × List Trade) :=
  match order.amount.parse with
  | none => none
  | some remaining =>
    match order.limit_price.parse with
    | none => none
    | some sellPrice =>
      let snapshot := sortLevelsDesc (book.bids.filter (fun pl => decide (sellPrice ≤ pl.1)))
      match matchBidLevels order.order_id order.pair remaining snapshot book.bids with
      | none => none
      | some (trades, bids3, _) => some ({ book with bids := bids3 }, trades)

/-- `OrderBook::add_order` (lines 250–258). -/
def OrderBook.add_order (book : OrderBook) (order : Order) : Option OrderBook :=
  match order.limit_price.parse with
  | none => none
  | some price =>
    if order.side = "BUY" then some { book with bids := mapPush book.bids price order }
    else some { book with asks := mapPush book.asks price order }

/-- The per-side body of `remove_order` (lines 264–268 and 271–276, identical
up to the side): if the level exists, retain the orders with a different id
and drop the level when it became empty; otherwise do nothing. -/
def deleteSide (m : List Level) (price : ℚ) (oid : String) : List Level :=
  match mapGet m price with
  | none => m
  | some os =>
    let os2 := os.filter (fun o => decide (o.order_id ≠ oid))
    if os2.isEmpty then mapRemove m price else mapSet m price os2

/-- `OrderBook::remove_order` (lines 260–278). -/
def OrderBook.remove_order (book : OrderBook) (order : Order) : Option OrderBook :=
  match order.limit_price.parse with
  | none => none
  | some price =>
    if order.side = "BUY" then
      some { book with bids := deleteSide book.bids price order.order_id }
    else
      some { book with asks := deleteSide book.asks price order.order_id }

/-- Sum of the amounts of a list of trades. -/
def sumAmounts (ts : List Trade) : ℚ := (ts.map (fun t => t.amount)).sum

/-- `OrderBook::get_remaining_order` (lines 280–301); it reads no book state. -/
def OrderBook.get_remaining_order (original : Order) (trades : List Trade) :
    Option (Option Order) :=
  match original.amount.parse with
  | none => none
  | some originalAmount =>
    let traded :=
      sumAmounts (trades.filter (fun t => decide (t.taker_order_id = original.order_id)))
    let remaining := originalAmount - traded
    if 0 < remaining then some (some { original with amount := DecText.num remaining })
    else some none

/-- `OrderBook::process_order` (lines 61–92).  The third component of the
result collects `eprintln!` diagnostics. -/
def OrderBook.process_order (book : OrderBook) (order : Order) :
    Option (OrderBook × List Trade × List String) :=
  match
    (if order.type_op = "CREATE" then
      if order.side = "BUY" then
        match book.match_buy_order order with
        | none => none
        | some (b1, ts) =>
          match OrderBook.get_remaining_order order ts with
          | none => none
          | some none => some (b1, ts, ([] : List String))
          | some (some ro) =>
            match b1.add_order ro with
            | none => none
            | some b2 => some (b2, ts, [])
      else if order.side = "SELL" then
        match book.match_sell_order order with
        | none => none
        | some (b1, ts) =>
          match OrderBook.get_remaining_order order ts with
          | none => none
          | some none => some (b1, ts, ([] : List String))
          | some (some ro) =>
            match b1.add_order ro with
            | none => none
            | some b2 => some (b2, ts, [])
      else some (book, [], [])
    else if order.type_op = "DELETE" then
      match book.remove_order order with
      | none => none
      | some b1 => some (b1, [], [])
    else some (book, [], ["Unknown order type: " ++ order.type_op]))
  with
  | none => none
  | some (b, ts, logs) => some ({ b with trades := b.trades ++ ts }, ts, logs)

/-- Feeding a batch of orders through `process_order` one at a time, as
`main.rs` does, starting from a given book. -/
def runOrders : OrderBook → List Order → Option OrderBook
  | b, [] => some b
  | b, o :: os =>
    match b.process_order o with
    | none => none
    | some (b2, _, _) => runOrders b2 os

/-! ## Well-formedness predicates -/

/-- The price keys of one side of the book. -/
def keysOf (m : List Level) : List ℚ := m.map (fun pl => pl.1)

/-- `BTreeMap` representation invariant: keys strictly ascending. -/
def SortedKeys (m : List Level) : Prop := List.Pairwise (fun p q => p < q) (keysOf m)

/-- A well-formed resting bid at price `p`: its price text parses back to its
map key, its amount text parses to a strictly positive decimal, and its side
matches the bid map. -/
def BidOrderAt (p : ℚ) (o : Order) : Prop :=
  o.limit_price.parse = some p ∧ (∃ a, o.amount.parse = some a ∧ 0 < a) ∧ o.side = "BUY"

/-- A well-formed resting ask at price `p`. -/
def AskOrderAt (p : ℚ) (o : Order) : Prop :=
  o.limit_price.parse = some p ∧ (∃ a, o.amount.parse = some a ∧ 0 < a) ∧ o.side = "SELL"

/-- Every order of every level satisfies `P` at the level's key. -/
def OrdersHold (P : ℚ → Order → Prop) (m : List Level) : Prop :=
  ∀ pl ∈ m, ∀ o ∈ pl.2, P pl.1 o

/-- Every level is nonempty and all its orders satisfy `P` at its key. -/
def LevelsHold (P : ℚ → Order → Prop) (m : List Level) : Prop :=
  (∀ pl ∈ m, pl.2 ≠ []) ∧ OrdersHold P m

/-- Every bid level is nonempty and holds only well-formed bids at its key. -/
def GoodBidLevels (m : List Level) : Prop := LevelsHold BidOrderAt m

/-- Every ask level is nonempty and holds only well-formed asks at its key. -/
def GoodAskLevels (m : List Level) : Prop := LevelsHold AskOrderAt m

/-- Full book well-formedness. -/
def ValidBook (b : OrderBook) : Prop :=
  (SortedKeys b.bids ∧ GoodBidLevels b.bids) ∧ (SortedKeys b.asks ∧ GoodAskLevels b.asks)

/-- The book is not crossed: every resting bid price is strictly below every
resting ask price. -/
def Uncrossed (b : OrderBook) : Prop :=
  ∀ bp ∈ keysOf b.bids, ∀ ap ∈ keysOf b.asks, bp < ap

/-- A well-formed instruction per the spec's data model: price and amount
texts parse exactly, the amount is non-negative, the operation kind is
`CREATE` or `DELETE` and the side is `BUY` or `SELL`. -/
def WellFormed (o : Order) : Prop :=
  (∃ a, o.amount.parse = some a ∧ 0 ≤ a) ∧ (∃ p, o.limit_price.parse = some p) ∧
  (o.type_op = "CREATE" ∨ o.type_op = "DELETE") ∧ (o.side = "BUY" ∨ o.side = "SELL")

/-! ## Association-list (`BTreeMap`) lemmas -/

theorem mapGet_eq_none_iff {m : List Level} {p : ℚ} :
    mapGet m p = none ↔ p ∉ keysOf m := by
  induction m with
  | nil => simp [mapGet, keysOf]
  | cons hd tl ih =>
    obtain ⟨q, os⟩ := hd
    by_cases h : p = q <;> simp [mapGet, keysOf, h, ih] at * <;> tauto

theorem get_of_mem_keys {m : List Level} {p : ℚ} (h : p ∈ keysOf m) :
    ∃ os, mapGet m p = some os := by
  cases hg : mapGet m p with
  | none => exact absurd h (mapGet_eq_none_iff.mp hg)
  | some os => exact ⟨os, rfl⟩

theorem mem_keys_of_get {m : List Level} {p : ℚ} {os : List Order}
    (h : mapGet m p = some os) : p ∈ keysOf m := by
  by_contra hc
  rw [← mapGet_eq_none_iff] at hc
  simp [hc] at h

theorem mapGet_mem {m : List Level} {p : ℚ} {os : List Order}
    (h : mapGet m p = some os) : (p, os) ∈ m := by
  induction m with
  | nil => simp [mapGet] at h
  | cons hd tl ih =>
    obtain ⟨q, v⟩ := hd
    by_cases hpq : p = q
    · subst hpq
      simp [mapGet] at h
      simp [h]
    · simp [mapGet, hpq] at h
      simp [ih h]

theorem mapGet_of_mem_sorted {m : List Level} {p : ℚ} {os : List Order}
    (hs : SortedKeys m) (h : (p, os) ∈ m) : mapGet m p = some os := by
  induction m with
  | nil => simp at h
  | cons hd tl ih =>
    obtain ⟨q, v⟩ := hd
    rw [SortedKeys, keysOf, List.map_cons, List.pairwise_cons] at hs
    rcases List.mem_cons.mp h with h1 | h1
    · rw [Prod.mk.injEq] at h1
      simp [mapGet, h1.1, h1.2]
    · have hne : p ≠ q := by
        intro he
        subst he
        exact absurd (hs.1 p (List.mem_map_of_mem _ h1)) (lt_irrefl p)
      simp [mapGet, hne]
      exact ih hs.2 h1

theorem mapGet_set_self {m : List Level} {p : ℚ} {v : List Order} :
    mapGet (mapSet m p v) p = (mapGet m p).map (fun _ => v) := by
  induction m with
  | nil => simp [mapGet, mapSet]
  | cons hd tl ih =>
    obtain ⟨q, os⟩ := hd
    by_cases h : p = q <;> simp [mapGet, mapSet, h, ih]

theorem mapGet_set_ne {m : List Level} {p q : ℚ} {v : List Order} (hne : q ≠ p) :
    mapGet (mapSet m p v) q = mapGet m q := by
  induction m with
  | nil => simp [mapGet, mapSet]
  | cons hd tl ih =>
    obtain ⟨r, os⟩ := hd
    by_cases h1 : p = r
    · subst h1
      simp [mapGet, mapSet, hne, if_neg hne]
    · by_cases h2 : q = r <;> simp [mapGet, mapSet, h1, h2, ih]

theorem keysOf_mapSet {m : List Level} {p : ℚ} {v : List Order} :
    keysOf (mapSet m p v) = keysOf m := by
  induction m with
  | nil => simp [mapSet]
  | cons hd tl ih =>
    obtain ⟨q, os⟩ := hd
    by_cases h : p = q <;> simp [mapSet, keysOf, h] at * <;> exact ih

theorem mapSet_self {m : List Level} {p : ℚ} {v : List Order}
    (h : mapGet m p = some v) : mapSet m p v = m := by
  induction m with
  | nil => simp [mapGet] at h
  | cons hd tl ih =>
    obtain ⟨q, os⟩ := hd
    by_cases hpq : p = q
    · subst hpq
      simp [mapGet] at h
      simp [mapSet, h]
    · simp [mapGet, hpq] at h
      simp [mapSet, hpq, ih h]

theorem mapRemove_sublist (m : List Level) (p : ℚ) : (mapRemove m p).Sublist m := by
  induction m with
  | nil => simp [mapRemove]
  | cons hd tl ih =>
    obtain ⟨q, os⟩ := hd
    by_cases h : p = q
    · simpa [mapRemove, h] using List.sublist_cons_self _ _
    · simpa [mapRemove, h] using ih.cons₂ (q, os)

theorem mapGet_remove_ne {m : List Level} {p q : ℚ} (hne : q ≠ p) :
    mapGet (mapRemove m p) q = mapGet m q := by
  induction m with
  | nil => simp [mapRemove]
  | cons hd tl ih =>
    obtain ⟨r, os⟩ := hd
    by_cases h1 : p = r
    · subst h1
      simp [mapRemove, mapGet, hne, if_neg hne]
    · by_cases h2 : q = r <;> simp [mapRemove, mapGet, h1, h2, ih]

theorem keysOf_sublist_of_sublist {m m' : List Level} (h : m'.Sublist m) :
    (keysOf m').Sublist (keysOf m) := h.map _

theorem sortedKeys_of_sublist {m m' : List Level} (h : m'.Sublist m)
    (hs : SortedKeys m) : SortedKeys m' :=
  List.Pairwise.sublist (keysOf_sublist_of_sublist h) hs

theorem not_mem_keys_mapRemove_self {m : List Level} {p : ℚ} (hs : SortedKeys m) :
    p ∉ keysOf (mapRemove m p) := by
  induction m with
  | nil => simp [mapRemove, keysOf]
  | cons hd tl ih =>
    obtain ⟨q, os⟩ := hd
    rw [SortedKeys, keysOf, List.map_cons, List.pairwise_cons] at hs
    by_cases h : p = q
    · subst h
      simp only [mapRemove, if_pos rfl]
      intro hmem
      exact absurd (hs.1 p hmem) (lt_irrefl p)
    · simp only [mapRemove, if_neg h, keysOf, List.map_cons, List.mem_cons]
      rintro (h1 | h1)
      · exact h h1
      · exact ih hs.2 h1

theorem ordersHold_of_sublist {P : ℚ → Order → Prop} {m m' : List Level}
    (hsub : m'.Sublist m) (h : OrdersHold P m) : OrdersHold P m' :=
  fun pl hpl => h pl (hsub.mem hpl)

/-! ### `mapPush` lemmas -/

theorem mem_mapPush {m : List Level} {p : ℚ} {o : Order} {x : Level}
    (h : x ∈ mapPush m p o) :
    x ∈ m ∨ x = (p, [o]) ∨ ∃ os, (p, os) ∈ m ∧ x = (p, os ++ [o]) := by
  induction m with
  | nil => simp [mapPush] at h; tauto
  | cons hd tl ih =>
    obtain ⟨q, os⟩ := hd
    by_cases h1 : p < q
    · simp [mapPush, h1] at h
      rcases h with h | h | h <;> simp [h] <;> tauto
    · by_cases h2 : p = q
      · subst h2
        simp [mapPush, h1] at h
        rcases h with h | h
        · right; right; exact ⟨os, by simp, h⟩
        · left; simp [h]
      · simp [mapPush, h1, h2] at h
        rcases h with h | h
        · left; simp [h]
        · rcases ih h with h3 | h3 | ⟨os2, h3, h4⟩
          · left; simp [h3]
          · tauto
          · right; right; exact ⟨os2, by simp [h3], h4⟩

theorem keys_mapPush_sub {m : List Level} {p q : ℚ} {o : Order}
    (h : q ∈ keysOf (mapPush m p o)) : q ∈ keysOf m ∨ q = p := by
  rw [keysOf, List.mem_map] at h
  obtain ⟨x, hx, hq⟩ := h
  rcases mem_mapPush hx with h1 | h1 | ⟨os, h1, h2⟩
  · left
    rw [keysOf, List.mem_map]
    exact ⟨x, h1, hq⟩
  · right
    rw [← hq, h1]
  · left
    rw [keysOf, List.mem_map]
    exact ⟨(p, os), h1, by rw [← hq, h2]⟩

theorem sortedKeys_mapPush {m : List Level} {p : ℚ} {o : Order}
    (hs : SortedKeys m) : SortedKeys (mapPush m p o) := by
  induction m with
  | nil => simp [mapPush, SortedKeys, keysOf]
  | cons hd tl ih =>
    obtain ⟨q, os⟩ := hd
    simp only [SortedKeys, keysOf, List.map_cons, List.pairwise_cons] at hs
    by_cases h1 : p < q
    · simp only [SortedKeys, keysOf, mapPush, if_pos h1, List.map_cons, List.pairwise_cons]
      refine ⟨?_, hs⟩
      intro r hr
      rcases List.mem_cons.mp hr with h2 | h2
      · exact h2 ▸ h1
      · exact h1.trans (hs.1 r h2)
    · by_cases h2 : p = q
      · simp only [SortedKeys, keysOf, mapPush, if_neg h1, if_pos h2, List.map_cons,
          List.pairwise_cons]
        exact hs
      · simp only [SortedKeys, keysOf, mapPush, if_neg h1, if_neg h2, List.map_cons,
          List.pairwise_cons]
        refine ⟨?_, ih hs.2⟩
        intro r hr
        rcases keys_mapPush_sub (by simpa [keysOf] using hr) with h3 | h3
        · exact hs.1 r h3
        · subst h3
          exact lt_of_le_of_ne (not_lt.mp h1) (Ne.symm h2)

theorem mapGet_push_ne {m : List Level} {p q : ℚ} {o : Order} (hne : q ≠ p) :
    mapGet (mapPush m p o) q = mapGet m q := by
  induction m with
  | nil => simp [mapPush, mapGet, hne, if_neg hne]
  | cons hd tl ih =>
    obtain ⟨r, os⟩ := hd
    by_cases h1 : p < r
    · simp [mapPush, h1, mapGet, if_neg hne]
    · by_cases h2 : p = r
      · subst h2
        simp [mapPush, h1, mapGet, hne, if_neg hne]
      · by_cases h3 : q = r <;> simp [mapPush, h1, h2, mapGet, h3, ih]

theorem mapGet_push_self {m : List Level} {p : ℚ} {o : Order} (hs : SortedKeys m) :
    mapGet (mapPush m p o) p = some ((mapGet m p).getD [] ++ [o]) := by
  induction m with
  | nil => simp [mapPush, mapGet]
  | cons hd tl ih =>
    obtain ⟨q, os⟩ := hd
    simp only [SortedKeys, keysOf, List.map_cons, List.pairwise_cons] at hs
    by_cases h1 : p < q
    · have hqne : ¬ p = q := fun h => absurd (h ▸ h1) (lt_irrefl q)
      have hget : mapGet tl p = none := by
        rw [mapGet_eq_none_iff]
        intro h2
        exact absurd (hs.1 p h2) (not_lt.mpr h1.le)
      simp [mapPush, h1, mapGet, hqne, hget]
    · by_cases h2 : p = q
      · subst h2
        simp [mapPush, h1, mapGet]
      · simp [mapPush, h1, h2, mapGet, ih hs.2]

/-! ## Buy-side inner sweep (`matchAskOrders`) lemmas -/

theorem matchAskOrders_success {takerId pairName : String} {price : ℚ} {os : List Order} :
    (∀ o ∈ os, ∃ a, o.amount.parse = some a) → ∀ r,
    ∃ out, matchAskOrders takerId pairName price r os = some out := by
  induction os with
  | nil => exact fun _ _ => ⟨_, rfl⟩
  | cons o os ih =>
    intro hv r
    cases hout : matchAskOrders takerId pairName price r (o :: os) with
    | some out => exact ⟨out, rfl⟩
    | none =>
      exfalso
      by_cases hr : r ≤ 0
      · simp [matchAskOrders, hr] at hout
      · obtain ⟨a, ha⟩ := hv o (by simp)
        obtain ⟨⟨ts, os2, ids, r2⟩, hrec⟩ :=
          ih (fun o' ho' => hv o' (by simp [ho'])) (r - min r a)
        by_cases ht : min r a < a <;> simp [matchAskOrders, hr, ha, hrec, ht] at hout

theorem matchAskOrders_sum {takerId pairName : String} {price : ℚ} {os : List Order}
    {r : ℚ} {ts : List Trade} {os2 : List Order} {ids : List String} {r2 : ℚ} :
    matchAskOrders takerId pairName price r os = some (ts, os2, ids, r2) →
    sumAmounts ts = r - r2 := by
  induction os generalizing r ts os2 ids r2 with
  | nil =>
    intro h
    simp [matchAskOrders] at h
    obtain ⟨rfl, rfl, rfl, rfl⟩ := h
    simp [sumAmounts]
  | cons o os ih =>
    intro h
    by_cases hr : r ≤ 0
    · simp [matchAskOrders, hr] at h
      obtain ⟨rfl, rfl, rfl, rfl⟩ := h
      simp [sumAmounts]
    · cases ha : o.amount.parse with
      | none => simp [matchAskOrders, hr, ha] at h
      | some a =>
        cases hrec : matchAskOrders takerId pairName price (r - min r a) os with
        | none =>
          by_cases ht : min r a < a <;> simp [matchAskOrders, hr, ha, hrec, ht] at h
        | some out =>
          obtain ⟨ts', os2', ids', r2'⟩ := out
          have hsum := ih hrec
          by_cases ht : min r a < a <;>
            [skip; skip] <;>
            · simp [matchAskOrders, hr, ha, hrec, ht] at h
              obtain ⟨rfl, rfl, rfl, rfl⟩ := h
              simp [sumAmounts, mkTrade] at hsum ⊢
              linarith

theorem matchAskOrders_bounds {takerId pairName : String} {price : ℚ} {os : List Order}
    {r : ℚ} {ts : List Trade} {os2 : List Order} {ids : List String} {r2 : ℚ} :
    (∀ o ∈ os, ∃ a, o.amount.parse = some a ∧ 0 < a) →
    matchAskOrders takerId pairName price r os = some (ts, os2, ids, r2) →
    0 ≤ r → 0 ≤ r2 ∧ r2 ≤ r := by
  induction os generalizing r ts os2 ids r2 with
  | nil =>
    intro _ h hr0
    simp [matchAskOrders] at h
    obtain ⟨rfl, rfl, rfl, rfl⟩ := h
    exact ⟨hr0, le_refl r⟩
  | cons o os ih =>
    intro hv h hr0
    by_cases hr : r ≤ 0
    · simp [matchAskOrders, hr] at h
      obtain ⟨rfl, rfl, rfl, rfl⟩ := h
      exact ⟨hr0, le_refl r⟩
    · obtain ⟨a, ha, hapos⟩ := hv o (by simp)
      cases hrec : matchAskOrders takerId pairName price (r - min r a) os with
      | none =>
        by_cases ht : min r a < a <;> simp [matchAskOrders, hr, ha, hrec, ht] at h
      | some out =>
        obtain ⟨ts', os2', ids', r2'⟩ := out
        have hmin : 0 < min r a := lt_min (not_le.mp hr) hapos
        have hrest := ih (fun o' ho' => hv o' (by simp [ho'])) hrec
          (by linarith [min_le_left r a])
        by_cases ht : min r a < a <;>
          · simp [matchAskOrders, hr, ha, hrec, ht] at h
            obtain ⟨rfl, rfl, rfl, rfl⟩ := h
            exact ⟨hrest.1, by linarith [hrest.2]⟩

theorem matchAskOrders_orders {takerId pairName : String} {price : ℚ} {os : List Order}
    {r : ℚ} {ts : List Trade} {os2 : List Order} {ids : List String} {r2 : ℚ} :
    (∀ o ∈ os, AskOrderAt price o) →
    matchAskOrders takerId pairName price r os = some (ts, os2, ids, r2) →
    os2.length = os.length ∧ ∀ o' ∈ os2, AskOrderAt price o' := by
  induction os generalizing r ts os2 ids r2 with
  | nil =>
    intro _ h
    simp [matchAskOrders] at h
    obtain ⟨rfl, rfl, rfl, rfl⟩ := h
    simp
  | cons o os ih =>
    intro hv h
    by_cases hr : r ≤ 0
    · simp [matchAskOrders, hr] at h
      obtain ⟨rfl, rfl, rfl, rfl⟩ := h
      exact ⟨rfl, hv⟩
    · obtain ⟨a, ha, hapos⟩ := (hv o (by simp)).2.1
      cases hrec : matchAskOrders takerId pairName price (r - min r a) os with
      | none =>
        by_cases ht : min r a < a <;> simp [matchAskOrders, hr, ha, hrec, ht] at h
      | some out =>
        obtain ⟨ts', os2', ids', r2'⟩ := out
        have hrest := ih (fun o' ho' => hv o' (by simp [ho'])) hrec
        by_cases ht : min r a < a
        · simp [matchAskOrders, hr, ha, hrec, ht] at h
          obtain ⟨rfl, rfl, rfl, rfl⟩ := h
          constructor
          · simp [hrest.1]
          · intro o' ho'
            rcases List.mem_cons.mp ho' with h1 | h1
            · subst h1
              obtain ⟨hl, _, hside⟩ := hv o (by simp)
              exact ⟨hl, ⟨a - min r a, by simp [DecText.parse], by linarith⟩, hside⟩
            · exact hrest.2 o' h1
        · simp [matchAskOrders, hr, ha, hrec, ht] at h
          obtain ⟨rfl, rfl, rfl, rfl⟩ := h
          constructor
          · simp [hrest.1]
          · intro o' ho'
            rcases List.mem_cons.mp ho' with h1 | h1
            · exact hv o' (by simp [h1])
            · exact hrest.2 o' h1

theorem matchAskOrders_fullfill {takerId pairName : String} {price : ℚ} {os : List Order}
    {r : ℚ} {ts : List Trade} {os2 : List Order} {ids : List String} {r2 : ℚ} :
    (∀ o ∈ os, ∃ a, o.amount.parse = some a ∧ 0 < a) →
    matchAskOrders takerId pairName price r os = some (ts, os2, ids, r2) →
    0 < r2 → os2 = os ∧ ids = os.map (fun o => o.order_id) := by
  induction os generalizing r ts os2 ids r2 with
  | nil =>
    intro _ h _
    simp [matchAskOrders] at h
    obtain ⟨rfl, rfl, rfl, rfl⟩ := h
    simp
  | cons o os ih =>
    intro hv h hr2
    by_cases hr : r ≤ 0
    · simp [matchAskOrders, hr] at h
      obtain ⟨rfl, rfl, rfl, rfl⟩ := h
      exact absurd hr2 (not_lt.mpr hr)
    · obtain ⟨a, ha, hapos⟩ := hv o (by simp)
      cases hrec : matchAskOrders takerId pairName price (r - min r a) os with
      | none =>
        by_cases ht : min r a < a <;> simp [matchAskOrders, hr, ha, hrec, ht] at h
      | some out =>
        obtain ⟨ts', os2', ids', r2'⟩ := out
        have hvos : ∀ o' ∈ os, ∃ a, o'.amount.parse = some a ∧ 0 < a :=
          fun o' ho' => hv o' (by simp [ho'])
        have hbounds := matchAskOrders_bounds hvos hrec
          (by linarith [min_le_left r a])
        by_cases ht : min r a < a
        · simp [matchAskOrders, hr, ha, hrec, ht] at h
          obtain ⟨rfl, rfl, rfl, rfl⟩ := h
          -- partial fill consumes the whole incoming amount, so r2 > 0 is impossible
          have hminr : min r a = r := by
            rcases min_cases r a with ⟨h1, _⟩ | ⟨h1, _⟩
            · exact h1
            · rw [h1] at ht
              exact absurd ht (lt_irrefl a)
          rw [hminr] at hbounds
          have := hbounds.2
          linarith
        · simp [matchAskOrders, hr, ha, hrec, ht] at h
          obtain ⟨rfl, rfl, rfl, rfl⟩ := h
          obtain ⟨rfl, rfl⟩ := ih hvos hrec hr2
          simp

theorem matchAskOrders_takers {takerId pairName : String} {price : ℚ} {os : List Order}
    {r : ℚ} {ts : List Trade} {os2 : List Order} {ids : List String} {r2 : ℚ} :
    matchAskOrders takerId pairName price r os = some (ts, os2, ids, r2) →
    ∀ t ∈ ts, t.taker_order_id = takerId ∧ t.price = price ∧ t.pair = pairName := by
  induction os generalizing r ts os2 ids r2 with
  | nil =>
    intro h
    simp [matchAskOrders] at h
    obtain ⟨rfl, rfl, rfl, rfl⟩ := h
    simp
  | cons o os ih =>
    intro h
    by_cases hr : r ≤ 0
    · simp [matchAskOrders, hr] at h
      obtain ⟨rfl, rfl, rfl, rfl⟩ := h
      simp
    · cases ha : o.amount.parse with
      | none => simp [matchAskOrders, hr, ha] at h
      | some a =>
        cases hrec : matchAskOrders takerId pairName price (r - min r a) os with
        | none =>
          by_cases ht : min r a < a <;> simp [matchAskOrders, hr, ha, hrec, ht] at h
        | some out =>
          obtain ⟨ts', os2', ids', r2'⟩ := out
          by_cases ht : min r a < a <;>
            · simp [matchAskOrders, hr, ha, hrec, ht] at h
              obtain ⟨rfl, rfl, rfl, rfl⟩ := h
              intro t hts
              rcases List.mem_cons.mp hts with h1 | h1
              · subst h1
                simp [mkTrade]
              · exact ih hrec t h1

theorem matchAskOrders_makers {takerId pairName : String} {price : ℚ} {os : List Order}
    {r : ℚ} {ts : List Trade} {os2 : List Order} {ids : List String} {r2 : ℚ} :
    matchAskOrders takerId pairName price r os = some (ts, os2, ids, r2) →
    ts.map (fun t => t.maker_order_id) = (os.take ts.length).map (fun o => o.order_id) := by
  induction os generalizing r ts os2 ids r2 with
  | nil =>
    intro h
    simp [matchAskOrders] at h
    obtain ⟨rfl, rfl, rfl, rfl⟩ := h
    simp
  | cons o os ih =>
    intro h
    by_cases hr : r ≤ 0
    · simp [matchAskOrders, hr] at h
      obtain ⟨rfl, rfl, rfl, rfl⟩ := h
      simp
    · cases ha : o.amount.parse with
      | none => simp [matchAskOrders, hr, ha] at h
      | some a =>
        cases hrec : matchAskOrders takerId pairName price (r - min r a) os with
        | none =>
          by_cases ht : min r a < a <;> simp [matchAskOrders, hr, ha, hrec, ht] at h
        | some out =>
          obtain ⟨ts', os2', ids', r2'⟩ := out
          by_cases ht : min r a < a <;>
            · simp [matchAskOrders, hr, ha, hrec, ht] at h
              obtain ⟨rfl, rfl, rfl, rfl⟩ := h
              simp [mkTrade, ih hrec]

theorem matchAskOrders_amount {takerId pairName : String} {price : ℚ} {os : List Order}
    {r : ℚ} {ts : List Trade} {os2 : List Order} {ids : List String} {r2 : ℚ} :
    matchAskOrders takerId pairName price r os = some (ts, os2, ids, r2) →
    ∀ i, i < ts.length →
      ∃ o a, os.get? i = some o ∧ o.amount.parse = some a ∧
        ts.get? i = some (mkTrade takerId o.order_id pairName price
          (min (r - sumAmounts (ts.take i)) a)) := by
  induction os generalizing r ts os2 ids r2 with
  | nil =>
    intro h
    simp [matchAskOrders] at h
    obtain ⟨rfl, rfl, rfl, rfl⟩ := h
    simp
  | cons o os ih =>
    intro h
    by_cases hr : r ≤ 0
    · simp [matchAskOrders, hr] at h
      obtain ⟨rfl, rfl, rfl, rfl⟩ := h
      simp
    · cases ha : o.amount.parse with
      | none => simp [matchAskOrders, hr, ha] at h
      | some a =>
        cases hrec : matchAskOrders takerId pairName price (r - min r a) os with
        | none =>
          by_cases ht : min r a < a <;> simp [matchAskOrders, hr, ha, hrec, ht] at h
        | some out =>
          obtain ⟨ts', os2', ids', r2'⟩ := out
          by_cases ht : min r a < a <;>
            · simp [matchAskOrders, hr, ha, hrec, ht] at h
              obtain ⟨rfl, rfl, rfl, rfl⟩ := h
              intro i hi
              cases i with
              | zero => exact ⟨o, a, rfl, ha, by simp [sumAmounts]⟩
              | succ j =>
                have hj : j < ts'.length := by simpa using hi
                obtain ⟨o', a', h1, h2, h3⟩ := ih hrec j hj
                refine ⟨o', a', by simpa using h1, h2, ?_⟩
                have harith :
                    r - min r a - sumAmounts (ts'.take j) =
                    r - sumAmounts ((mkTrade takerId o.order_id pairName price
                      (min r a) :: ts').take (j + 1)) := by
                  simp [sumAmounts, mkTrade]
                  ring
                simpa [harith] using h3

/-! ## Buy-side level sweep (`matchAskLevels`) lemmas -/

theorem levelDrained_not {os : List Order}
    (hv : ∀ o ∈ os, ∃ a, o.amount.parse = some a ∧ 0 < a) (hne : os ≠ []) :
    levelDrained os = some false := by
  cases os with
  | nil => exact absurd rfl hne
  | cons o os =>
    obtain ⟨a, ha, hapos⟩ := hv o (by simp)
    simp [levelDrained, ha, not_le.mpr hapos]

theorem sumAmounts_append {xs ys : List Trade} :
    sumAmounts (xs ++ ys) = sumAmounts xs + sumAmounts ys := by
  simp [sumAmounts]

theorem drainedCheck_not {os : List Order}
    (hv : ∀ o ∈ os, ∃ a, o.amount.parse = some a ∧ 0 < a) (hne : os ≠ []) :
    drainedCheck os = some false := by
  have h1 : ¬ os.isEmpty := by
    cases os with
    | nil => exact absurd rfl hne
    | cons o os' => simp
  simp [drainedCheck, h1, levelDrained_not hv hne]

theorem goodAskLevels_cons {p : ℚ} {os : List Order} {rest : List Level}
    (h : GoodAskLevels ((p, os) :: rest)) :
    (os ≠ [] ∧ ∀ o ∈ os, AskOrderAt p o) ∧ GoodAskLevels rest := by
  obtain ⟨h1, h2⟩ := h
  exact ⟨⟨h1 (p, os) (by simp), h2 (p, os) (by simp)⟩,
    fun pl hpl => h1 pl (by simp [hpl]), fun pl hpl => h2 pl (by simp [hpl])⟩

theorem askOrderAt_pos {p : ℚ} {o : Order} (h : AskOrderAt p o) :
    ∃ a, o.amount.parse = some a ∧ 0 < a := h.2.1

theorem matchAskLevels_success {takerId pairName : String} {buyPrice : ℚ} {m : List Level} :
    GoodAskLevels m → ∀ r, ∃ out, matchAskLevels takerId pairName buyPrice r m = some out := by
  induction m with
  | nil => exact fun _ _ => ⟨_, rfl⟩
  | cons hd rest ih =>
    obtain ⟨p, os⟩ := hd
    intro hg r
    cases hout : matchAskLevels takerId pairName buyPrice r ((p, os) :: rest) with
    | some out => exact ⟨out, rfl⟩
    | none =>
      exfalso
      obtain ⟨⟨hne, hord⟩, hrest⟩ := goodAskLevels_cons hg
      by_cases hp : buyPrice < p
      · simp [matchAskLevels, hp] at hout
      · obtain ⟨⟨ts, os2, ids, r1⟩, hmao⟩ :=
          @matchAskOrders_success takerId pairName p os
            (fun o ho => ⟨(askOrderAt_pos (hord o ho)).choose,
              (askOrderAt_pos (hord o ho)).choose_spec.1⟩) r
        have hords := matchAskOrders_orders hord hmao
        have hne2 : os2 ≠ [] := by
          intro hc
          rw [hc] at hords
          cases os with
          | nil => exact hne rfl
          | cons o os' => simp at hords
        have hdr : drainedCheck os2 = some false :=
          drainedCheck_not (fun o' ho' => askOrderAt_pos (hords.2 o' ho')) hne2
        obtain ⟨⟨ts3, rest3, removes3, upds3, r3⟩, hrec⟩ := ih hrest r1
        simp [matchAskLevels, hp, hmao, hdr, hrec] at hout

theorem matchAskLevels_sum {takerId pairName : String} {buyPrice : ℚ} {m : List Level}
    {r : ℚ} {ts : List Trade} {m2 : List Level} {removes : List ℚ}
    {upds : List (ℚ × String)} {r2 : ℚ} :
    matchAskLevels takerId pairName buyPrice r m = some (ts, m2, removes, upds, r2) →
    sumAmounts ts = r - r2 := by
  induction m generalizing r ts m2 removes upds r2 with
  | nil =>
    intro h
    simp [matchAskLevels] at h
    obtain ⟨rfl, rfl, rfl, rfl, rfl⟩ := h
    simp [sumAmounts]
  | cons hd rest ih =>
    obtain ⟨p, os⟩ := hd
    intro h
    by_cases hp : buyPrice < p
    · simp [matchAskLevels, hp] at h
      obtain ⟨rfl, rfl, rfl, rfl, rfl⟩ := h
      simp [sumAmounts]
    · cases hmao : matchAskOrders takerId pairName p r os with
      | none => simp [matchAskLevels, hp, hmao] at h
      | some out1 =>
        obtain ⟨ts1, os2, ids, r1⟩ := out1
        cases hdr : drainedCheck os2 with
        | none => simp [matchAskLevels, hp, hmao, hdr] at h
        | some drained =>
          cases hrec : matchAskLevels takerId pairName buyPrice r1 rest with
          | none => simp [matchAskLevels, hp, hmao, hdr, hrec] at h
          | some out3 =>
            obtain ⟨ts3, rest3, removes3, upds3, r3⟩ := out3
            simp [matchAskLevels, hp, hmao, hdr, hrec] at h
            obtain ⟨rfl, rfl, rfl, rfl, rfl⟩ := h
            have h1 := matchAskOrders_sum hmao
            have h3 := ih hrec
            rw [sumAmounts_append, h1, h3]
            ring

theorem matchAskLevels_bounds {takerId pairName : String} {buyPrice : ℚ} {m : List Level}
    {r : ℚ} {ts : List Trade} {m2 : List Level} {removes : List ℚ}
    {upds : List (ℚ × String)} {r2 : ℚ} :
    OrdersHold AskOrderAt m →
    matchAskLevels takerId pairName buyPrice r m = some (ts, m2, removes, upds, r2) →
    0 ≤ r → 0 ≤ r2 ∧ r2 ≤ r := by
  induction m generalizing r ts m2 removes upds r2 with
  | nil =>
    intro _ h hr0
    simp [matchAskLevels] at h
    obtain ⟨rfl, rfl, rfl, rfl, rfl⟩ := h
    exact ⟨hr0, le_refl r⟩
  | cons hd rest ih =>
    obtain ⟨p, os⟩ := hd
    intro hord h hr0
    by_cases hp : buyPrice < p
    · simp [matchAskLevels, hp] at h
      obtain ⟨rfl, rfl, rfl, rfl, rfl⟩ := h
      exact ⟨hr0, le_refl r⟩
    · cases hmao : matchAskOrders takerId pairName p r os with
      | none => simp [matchAskLevels, hp, hmao] at h
      | some out1 =>
        obtain ⟨ts1, os2, ids, r1⟩ := out1
        cases hdr : drainedCheck os2 with
        | none => simp [matchAskLevels, hp, hmao, hdr] at h
        | some drained =>
          cases hrec : matchAskLevels takerId pairName buyPrice r1 rest with
          | none => simp [matchAskLevels, hp, hmao, hdr, hrec] at h
          | some out3 =>
            obtain ⟨ts3, rest3, removes3, upds3, r3⟩ := out3
            simp [matchAskLevels, hp, hmao, hdr, hrec] at h
            obtain ⟨rfl, rfl, rfl, rfl, rfl⟩ := h
            have h1 := matchAskOrders_bounds
              (fun o ho => askOrderAt_pos (hord (p, os) (by simp) o ho)) hmao hr0
            have h3 := ih (fun pl hpl => hord pl (by simp [hpl])) hrec h1.1
            exact ⟨h3.1, h3.2.trans h1.2⟩

theorem matchAskLevels_levels {takerId pairName : String} {buyPrice : ℚ} {m : List Level}
    {r : ℚ} {ts : List Trade} {m2 : List Level} {removes : List ℚ}
    {upds : List (ℚ × String)} {r2 : ℚ} :
    GoodAskLevels m →
    matchAskLevels takerId pairName buyPrice r m = some (ts, m2, removes, upds, r2) →
    keysOf m2 = keysOf m ∧ GoodAskLevels m2 := by
  induction m generalizing r ts m2 removes upds r2 with
  | nil =>
    intro _ h
    simp [matchAskLevels] at h
    obtain ⟨rfl, rfl, rfl, rfl, rfl⟩ := h
    exact ⟨rfl, by simp [GoodAskLevels, LevelsHold, OrdersHold]⟩
  | cons hd rest ih =>
    obtain ⟨p, os⟩ := hd
    intro hg h
    obtain ⟨⟨hne, hord⟩, hrest⟩ := goodAskLevels_cons hg
    by_cases hp : buyPrice < p
    · simp [matchAskLevels, hp] at h
      obtain ⟨rfl, rfl, rfl, rfl, rfl⟩ := h
      exact ⟨rfl, hg⟩
    · cases hmao : matchAskOrders takerId pairName p r os with
      | none => simp [matchAskLevels, hp, hmao] at h
      | some out1 =>
        obtain ⟨ts1, os2, ids, r1⟩ := out1
        cases hdr : drainedCheck os2 with
        | none => simp [matchAskLevels, hp, hmao, hdr] at h
        | some drained =>
          cases hrec : matchAskLevels takerId pairName buyPrice r1 rest with
          | none => simp [matchAskLevels, hp, hmao, hdr, hrec] at h
          | some out3 =>
            obtain ⟨ts3, rest3, removes3, upds3, r3⟩ := out3
            simp [matchAskLevels, hp, hmao, hdr, hrec] at h
            obtain ⟨rfl, rfl, rfl, rfl, rfl⟩ := h
            have hords := matchAskOrders_orders hord hmao
            have hrest3 := ih hrest hrec
            have hne2 : os2 ≠ [] := by
              intro hc
              rw [hc] at hords
              cases os with
              | nil => exact hne rfl
              | cons o os' => simp at hords
            refine ⟨by simpa [keysOf] using hrest3.1, ?_, ?_⟩
            · intro pl hpl
              rcases List.mem_cons.mp hpl with h1 | h1
              · rw [h1]
                exact hne2
              · exact hrest3.2.1 pl h1
            · intro pl hpl
              rcases List.mem_cons.mp hpl with h1 | h1
              · rw [h1]
                exact hords.2
              · exact hrest3.2.2 pl h1

theorem matchAskLevels_zero {takerId pairName : String} {buyPrice : ℚ} {m : List Level}
    {r : ℚ} :
    GoodAskLevels m → r ≤ 0 →
    matchAskLevels takerId pairName buyPrice r m = some ([], m, [], [], r) := by
  induction m with
  | nil => intro _ _; rfl
  | cons hd rest ih =>
    obtain ⟨p, os⟩ := hd
    intro hg hr
    obtain ⟨⟨hne, hord⟩, hrest⟩ := goodAskLevels_cons hg
    by_cases hp : buyPrice < p
    · simp [matchAskLevels, hp]
    · have hmao : matchAskOrders takerId pairName p r os = some ([], os, [], r) := by
        cases os with
        | nil => rfl
        | cons o os' => simp [matchAskOrders, hr]
      have hdr : drainedCheck os = some false :=
        drainedCheck_not (fun o' ho' => askOrderAt_pos (hord o' ho')) hne
      simp [matchAskLevels, hp, hmao, hdr, ih hrest hr]

theorem matchAskLevels_fullfill {takerId pairName : String} {buyPrice : ℚ} {m : List Level}
    {r : ℚ} {ts : List Trade} {m2 : List Level} {removes : List ℚ}
    {upds : List (ℚ × String)} {r2 : ℚ} :
    SortedKeys m → GoodAskLevels m →
    matchAskLevels takerId pairName buyPrice r m = some (ts, m2, removes, upds, r2) →
    0 ≤ r → 0 < r2 →
    m2 = m ∧ ∀ l ∈ m, l.1 ≤ buyPrice → ∀ o ∈ l.2, (l.1, o.order_id) ∈ upds := by
  induction m generalizing r ts m2 removes upds r2 with
  | nil =>
    intro _ _ h _ _
    simp [matchAskLevels] at h
    obtain ⟨rfl, rfl, rfl, rfl, rfl⟩ := h
    simp
  | cons hd rest ih =>
    obtain ⟨p, os⟩ := hd
    intro hs hg h hr0 hr2
    obtain ⟨⟨hne, hord⟩, hrest⟩ := goodAskLevels_cons hg
    simp only [SortedKeys, keysOf, List.map_cons, List.pairwise_cons] at hs
    by_cases hp : buyPrice < p
    · simp [matchAskLevels, hp] at h
      obtain ⟨rfl, rfl, rfl, rfl, rfl⟩ := h
      refine ⟨rfl, ?_⟩
      intro l hl hlP
      rcases List.mem_cons.mp hl with h1 | h1
      · rw [h1] at hlP
        exact absurd hlP (not_le.mpr hp)
      · have : p < l.1 := hs.1 l.1 (List.mem_map_of_mem _ h1)
        exact absurd hlP (not_le.mpr (hp.trans this))
    · cases hmao : matchAskOrders takerId pairName p r os with
      | none => simp [matchAskLevels, hp, hmao] at h
      | some out1 =>
        obtain ⟨ts1, os2, ids, r1⟩ := out1
        cases hdr : drainedCheck os2 with
        | none => simp [matchAskLevels, hp, hmao, hdr] at h
        | some drained =>
          cases hrec : matchAskLevels takerId pairName buyPrice r1 rest with
          | none => simp [matchAskLevels, hp, hmao, hdr, hrec] at h
          | some out3 =>
            obtain ⟨ts3, rest3, removes3, upds3, r3⟩ := out3
            simp [matchAskLevels, hp, hmao, hdr, hrec] at h
            obtain ⟨rfl, rfl, rfl, rfl, rfl⟩ := h
            have hvos : ∀ o ∈ os, ∃ a, o.amount.parse = some a ∧ 0 < a :=
              fun o ho => askOrderAt_pos (hord o ho)
            have hb1 := matchAskOrders_bounds hvos hmao hr0
            have hb3 := matchAskLevels_bounds
              (fun pl hpl => hrest.2 pl hpl) hrec hb1.1
            have hr1pos : 0 < r1 := lt_of_lt_of_le hr2 hb3.2
            obtain ⟨rfl, rfl⟩ := matchAskOrders_fullfill hvos hmao hr1pos
            obtain ⟨rfl, hprop⟩ := ih (by exact hs.2) hrest hrec hb1.1 hr2
            refine ⟨rfl, ?_⟩
            intro l hl hlP
            rcases List.mem_cons.mp hl with h1 | h1
            · subst h1
              intro o ho
              apply List.mem_append_left
              exact List.mem_map_of_mem _ (List.mem_map_of_mem _ ho)
            · intro o ho
              exact List.mem_append_right _ (hprop l h1 hlP o ho)

theorem mem_of_maker {ts1 : List Trade} {os : List Order} {t : Trade}
    (hmk : ts1.map (fun t => t.maker_order_id) =
      (os.take ts1.length).map (fun o => o.order_id))
    (ht : t ∈ ts1) : ∃ o ∈ os, o.order_id = t.maker_order_id := by
  have h1 : t.maker_order_id ∈ ts1.map (fun t => t.maker_order_id) :=
    List.mem_map_of_mem _ ht
  rw [hmk] at h1
  obtain ⟨o, ho, hid⟩ := List.mem_map.mp h1
  exact ⟨o, List.take_subset _ _ ho, hid⟩

theorem chain_le_of_const {l : List ℚ} {c : ℚ} (h : ∀ x ∈ l, x = c) :
    List.Chain' (fun x y => x ≤ y) l := by
  induction l with
  | nil => simp
  | cons x xs ih =>
    cases xs with
    | nil => simp
    | cons y ys =>
      rw [List.chain'_cons]
      exact ⟨le_of_eq (by rw [h x (by simp), h y (by simp)]),
        ih (fun z hz => h z (by simp [hz]))⟩

theorem matchAskLevels_maker {takerId pairName : String} {buyPrice : ℚ} {m : List Level}
    {r : ℚ} {ts : List Trade} {m2 : List Level} {removes : List ℚ}
    {upds : List (ℚ × String)} {r2 : ℚ} :
    matchAskLevels takerId pairName buyPrice r m = some (ts, m2, removes, upds, r2) →
    ∀ t ∈ ts, t.taker_order_id = takerId ∧ t.price ≤ buyPrice ∧
      ∃ l ∈ m, t.price = l.1 ∧ ∃ o ∈ l.2, o.order_id = t.maker_order_id := by
  induction m generalizing r ts m2 removes upds r2 with
  | nil =>
    intro h
    simp [matchAskLevels] at h
    obtain ⟨rfl, rfl, rfl, rfl, rfl⟩ := h
    simp
  | cons hd rest ih =>
    obtain ⟨p, os⟩ := hd
    intro h
    by_cases hp : buyPrice < p
    · simp [matchAskLevels, hp] at h
      obtain ⟨rfl, rfl, rfl, rfl, rfl⟩ := h
      simp
    · cases hmao : matchAskOrders takerId pairName p r os with
      | none => simp [matchAskLevels, hp, hmao] at h
      | some out1 =>
        obtain ⟨ts1, os2, ids, r1⟩ := out1
        cases hdr : drainedCheck os2 with
        | none => simp [matchAskLevels, hp, hmao, hdr] at h
        | some drained =>
          cases hrec : matchAskLevels takerId pairName buyPrice r1 rest with
          | none => simp [matchAskLevels, hp, hmao, hdr, hrec] at h
          | some out3 =>
            obtain ⟨ts3, rest3, removes3, upds3, r3⟩ := out3
            simp [matchAskLevels, hp, hmao, hdr, hrec] at h
            obtain ⟨rfl, rfl, rfl, rfl, rfl⟩ := h
            intro t hts
            rcases List.mem_append.mp hts with h1 | h1
            · obtain ⟨htak, hpr, _⟩ := matchAskOrders_takers hmao t h1
              refine ⟨htak, by rw [hpr]; exact not_lt.mp hp, (p, os), by simp, hpr, ?_⟩
              exact mem_of_maker (matchAskOrders_makers hmao) h1
            · obtain ⟨htak, hpr, l, hl, hrest⟩ := ih hrec t h1
              exact ⟨htak, hpr, l, by simp [hl], hrest⟩

theorem matchAskLevels_ascending {takerId pairName : String} {buyPrice : ℚ}
    {m : List Level} {r : ℚ} {ts : List Trade} {m2 : List Level} {removes : List ℚ}
    {upds : List (ℚ × String)} {r2 : ℚ} :
    SortedKeys m →
    matchAskLevels takerId pairName buyPrice r m = some (ts, m2, removes, upds, r2) →
    List.Chain' (fun x y => x ≤ y) (ts.map (fun t => t.price)) := by
  induction m generalizing r ts m2 removes upds r2 with
  | nil =>
    intro _ h
    simp [matchAskLevels] at h
    obtain ⟨rfl, rfl, rfl, rfl, rfl⟩ := h
    simp
  | cons hd rest ih =>
    obtain ⟨p, os⟩ := hd
    intro hs h
    simp only [SortedKeys, keysOf, List.map_cons, List.pairwise_cons] at hs
    by_cases hp : buyPrice < p
    · simp [matchAskLevels, hp] at h
      obtain ⟨rfl, rfl, rfl, rfl, rfl⟩ := h
      simp
    · cases hmao : matchAskOrders takerId pairName p r os with
      | none => simp [matchAskLevels, hp, hmao] at h
      | some out1 =>
        obtain ⟨ts1, os2, ids, r1⟩ := out1
        cases hdr : drainedCheck os2 with
        | none => simp [matchAskLevels, hp, hmao, hdr] at h
        | some drained =>
          cases hrec : matchAskLevels takerId pairName buyPrice r1 rest with
          | none => simp [matchAskLevels, hp, hmao, hdr, hrec] at h
          | some out3 =>
            obtain ⟨ts3, rest3, removes3, upds3, r3⟩ := out3
            simp [matchAskLevels, hp, hmao, hdr, hrec] at h
            obtain ⟨rfl, rfl, rfl, rfl, rfl⟩ := h
            rw [List.map_append, List.chain'_append]
            have hconst : ∀ x ∈ ts1.map (fun t => t.price), x = p := by
              intro x hx
              obtain ⟨t, ht, rfl⟩ := List.mem_map.mp hx
              exact (matchAskOrders_takers hmao t ht).2.1
            refine ⟨chain_le_of_const hconst, ih hs.2 hrec, ?_⟩
            intro x hx y hy
            have hxp : x = p := hconst x (by
              obtain ⟨_, h2⟩ := List.mem_getLast?_eq_getLast hx
              exact h2 ▸ List.getLast_mem _)
            have hyl : y ∈ ts3.map (fun t => t.price) := by
              have := List.eq_cons_of_mem_head? hy
              rw [this]
              simp
            obtain ⟨t, ht3, rfl⟩ := List.mem_map.mp hyl
            obtain ⟨_, _, l, hl, hpr, _⟩ := matchAskLevels_maker hrec t ht3
            rw [hxp, hpr]
            exact le_of_lt (hs.1 l.1 (List.mem_map_of_mem _ hl))

/-! ## Post-pass (`removeFilledOrders`, `removePriceLevels`) lemmas -/

theorem mem_mapSet {m : List Level} {p : ℚ} {v : List Order} {x : Level} :
    x ∈ mapSet m p v → x ∈ m ∨ x = (p, v) := by
  induction m with
  | nil => intro h; simp [mapSet] at h
  | cons hd tl ih =>
    obtain ⟨q, os⟩ := hd
    intro h
    by_cases hpq : p = q
    · subst hpq
      simp only [mapSet, if_true, eq_self_iff_true, List.mem_cons] at h
      rcases h with h | h
      · exact Or.inr h
      · exact Or.inl (List.mem_cons_of_mem _ h)
    · simp only [mapSet, if_neg hpq, List.mem_cons] at h
      rcases h with h | h
      · exact Or.inl (by simp [h])
      · rcases ih h with h1 | h1
        · exact Or.inl (List.mem_cons_of_mem _ h1)
        · exact Or.inr h1

theorem removeFilledOrders_keys {upds : List (ℚ × String)} {asks : List Level} :
    keysOf (removeFilledOrders asks upds).1 = keysOf asks := by
  induction upds generalizing asks with
  | nil => rfl
  | cons hd rest ih =>
    obtain ⟨p, oid⟩ := hd
    cases hg : mapGet asks p with
    | none => simp only [removeFilledOrders, hg]; exact ih
    | some os =>
      by_cases he : (os.filter (fun o => decide (o.order_id ≠ oid))).isEmpty
      · simp only [removeFilledOrders, hg, if_pos he]
        rw [ih, keysOf_mapSet]
      · simp only [removeFilledOrders, hg, if_neg he]
        rw [ih, keysOf_mapSet]

theorem removeFilledOrders_orders {upds : List (ℚ × String)} {asks : List Level} :
    ∀ l2 ∈ (removeFilledOrders asks upds).1,
      ∃ l ∈ asks, l2.1 = l.1 ∧ ∀ o ∈ l2.2, o ∈ l.2 := by
  induction upds generalizing asks with
  | nil => exact fun l2 h => ⟨l2, h, rfl, fun o ho => ho⟩
  | cons hd rest ih =>
    obtain ⟨p, oid⟩ := hd
    cases hg : mapGet asks p with
    | none =>
      simp only [removeFilledOrders, hg]
      exact ih
    | some os =>
      by_cases he : (os.filter (fun o => decide (o.order_id ≠ oid))).isEmpty
      · simp only [removeFilledOrders, hg, if_pos he]
        intro l2 h2
        obtain ⟨l1, hl1, heq, hsub⟩ := ih l2 h2
        rcases mem_mapSet hl1 with h3 | h3
        · exact ⟨l1, h3, heq, hsub⟩
        · refine ⟨(p, os), mapGet_mem hg, by rw [heq, h3], ?_⟩
          intro o ho
          have := hsub o ho
          rw [h3] at this
          exact List.mem_of_mem_filter this
      · simp only [removeFilledOrders, hg, if_neg he]
        intro l2 h2
        obtain ⟨l1, hl1, heq, hsub⟩ := ih l2 h2
        rcases mem_mapSet hl1 with h3 | h3
        · exact ⟨l1, h3, heq, hsub⟩
        · refine ⟨(p, os), mapGet_mem hg, by rw [heq, h3], ?_⟩
          intro o ho
          have := hsub o ho
          rw [h3] at this
          exact List.mem_of_mem_filter this

theorem removeFilledOrders_empty {upds : List (ℚ × String)} {asks : List Level} {q : ℚ} :
    mapGet (removeFilledOrders asks upds).1 q = some [] →
    mapGet asks q = some [] ∨ q ∈ (removeFilledOrders asks upds).2 := by
  induction upds generalizing asks with
  | nil => exact fun h => Or.inl h
  | cons hd rest ih =>
    obtain ⟨p, oid⟩ := hd
    cases hg : mapGet asks p with
    | none =>
      intro h
      simp only [removeFilledOrders, hg] at h ⊢
      exact ih h
    | some os =>
      by_cases he : (os.filter (fun o => decide (o.order_id ≠ oid))).isEmpty
      · intro h
        simp only [removeFilledOrders, hg, if_pos he] at h ⊢
        rcases ih h with h1 | h1
        · by_cases hq : q = p
          · right
            simp [hq]
          · left
            rw [mapGet_set_ne hq] at h1
            exact h1
        · exact Or.inr (List.mem_cons_of_mem _ h1)
      · intro h
        simp only [removeFilledOrders, hg, if_neg he] at h ⊢
        rcases ih h with h1 | h1
        · by_cases hq : q = p
          · subst hq
            rw [mapGet_set_self, hg] at h1
            have h2 : (os.filter (fun o => decide (o.order_id ≠ oid))) = [] :=
              Option.some.inj h1
            rw [h2] at he
            simp at he
          · left
            rw [mapGet_set_ne hq] at h1
            exact h1
        · right
          exact h1

theorem removeFilledOrders_doomed {upds : List (ℚ × String)} {asks : List Level} {q : ℚ}
    {os : List Order} :
    mapGet asks q = some os → os ≠ [] → (∀ o ∈ os, (q, o.order_id) ∈ upds) →
    q ∈ (removeFilledOrders asks upds).2 := by
  induction upds generalizing asks os with
  | nil =>
    intro hg hne hmem
    obtain ⟨o, ho⟩ := List.exists_mem_of_ne_nil os hne
    exact absurd (hmem o ho) (List.not_mem_nil _)
  | cons hd rest ih =>
    obtain ⟨p, oid⟩ := hd
    intro hg hne hmem
    cases hgp : mapGet asks p with
    | none =>
      have hqp : q ≠ p := by
        rintro rfl
        rw [hg] at hgp
        cases hgp
      simp only [removeFilledOrders, hgp]
      refine ih hg hne ?_
      intro o ho
      rcases List.mem_cons.mp (hmem o ho) with h1 | h1
      · exact absurd (congrArg Prod.fst h1) hqp
      · exact h1
    | some osp =>
      by_cases hqp : q = p
      · subst hqp
        rw [hg] at hgp
        injection hgp with hosp
        subst hosp
        by_cases he : (os.filter (fun o => decide (o.order_id ≠ oid))).isEmpty
        · simp only [removeFilledOrders, hg, if_pos he]
          simp
        · simp only [removeFilledOrders, hg, if_neg he]
          have hg2 : mapGet (mapSet asks q (os.filter (fun o => decide (o.order_id ≠ oid)))) q
              = some (os.filter (fun o => decide (o.order_id ≠ oid))) := by
            rw [mapGet_set_self, hg]
            rfl
          have hne2 : os.filter (fun o => decide (o.order_id ≠ oid)) ≠ [] := by
            intro hc
            rw [hc] at he
            simp at he
          refine ih hg2 hne2 ?_
          intro o ho
          have hos : o ∈ os := List.mem_of_mem_filter ho
          have hoid : o.order_id ≠ oid := by simpa using List.of_mem_filter ho
          rcases List.mem_cons.mp (hmem o hos) with h1 | h1
          · exact absurd (congrArg Prod.snd h1) hoid
          · exact h1
      · by_cases he : (osp.filter (fun o => decide (o.order_id ≠ oid))).isEmpty
        · simp only [removeFilledOrders, hgp, if_pos he]
          apply List.mem_cons_of_mem
          refine ih (by rw [mapGet_set_ne hqp]; exact hg) hne ?_
          intro o ho
          rcases List.mem_cons.mp (hmem o ho) with h1 | h1
          · exact absurd (congrArg Prod.fst h1) hqp
          · exact h1
        · simp only [removeFilledOrders, hgp, if_neg he]
          refine ih (by rw [mapGet_set_ne hqp]; exact hg) hne ?_
          intro o ho
          rcases List.mem_cons.mp (hmem o ho) with h1 | h1
          · exact absurd (congrArg Prod.fst h1) hqp
          · exact h1

theorem removePriceLevels_sublist (ps : List ℚ) (m : List Level) :
    (removePriceLevels m ps).Sublist m := by
  induction ps generalizing m with
  | nil => exact List.Sublist.refl m
  | cons p ps ih => exact (ih (mapRemove m p)).trans (mapRemove_sublist m p)

theorem keys_removePriceLevels_not_mem {ps : List ℚ} {m : List Level} {p : ℚ} :
    SortedKeys m → p ∈ ps → p ∉ keysOf (removePriceLevels m ps) := by
  induction ps generalizing m with
  | nil =>
    intro _ h
    cases h
  | cons q ps ih =>
    intro hs hmem hk
    simp only [removePriceLevels] at hk
    by_cases hpq : p = q
    · subst hpq
      have h1 : p ∉ keysOf (mapRemove m p) := not_mem_keys_mapRemove_self hs
      have h2 := keysOf_sublist_of_sublist (removePriceLevels_sublist ps (mapRemove m p))
      exact h1 (h2.subset hk)
    · rcases List.mem_cons.mp hmem with h1 | h1
      · exact hpq h1
      · exact ih (sortedKeys_of_sublist (mapRemove_sublist m q) hs) h1 hk

/-! ## `match_buy_order` master specification -/

theorem match_buy_spec {book : OrderBook} {order : Order} {A P : ℚ}
    (hA : order.amount.parse = some A) (hP : order.limit_price.parse = some P)
    (hs : SortedKeys book.asks) (hg : GoodAskLevels book.asks) (hA0 : 0 ≤ A) :
    ∃ asks3 ts,
      book.match_buy_order order = some ({ book with asks := asks3 }, ts) ∧
      SortedKeys asks3 ∧ GoodAskLevels asks3 ∧
      (∀ q ∈ keysOf asks3, q ∈ keysOf book.asks) ∧
      (∀ t ∈ ts, t.taker_order_id = order.order_id) ∧
      0 ≤ A - sumAmounts ts ∧
      (0 < A - sumAmounts ts → ∀ q ∈ keysOf asks3, P < q) ∧
      List.Chain' (fun x y => x ≤ y) (ts.map (fun t => t.price)) ∧
      (∀ t ∈ ts, t.price ≤ P ∧ ∃ l ∈ book.asks, t.price = l.1 ∧
        ∃ o ∈ l.2, o.order_id = t.maker_order_id) := by
  obtain ⟨⟨ts, asks1, removes1, upds1, rf⟩, hmal⟩ :=
    @matchAskLevels_success order.order_id order.pair P book.asks hg A
  rcases hpass : removeFilledOrders asks1 upds1 with ⟨pass1, pass2⟩
  have heq : book.match_buy_order order =
      some ({ book with asks := removePriceLevels pass1 (removes1 ++ pass2) }, ts) := by
    simp [OrderBook.match_buy_order, hA, hP, hmal, hpass]
  have hlv := matchAskLevels_levels hg hmal
  have hRk : keysOf pass1 = keysOf asks1 := by
    have h1 := @removeFilledOrders_keys upds1 asks1
    rw [hpass] at h1
    exact h1
  have hRo : ∀ l2 ∈ pass1, ∃ l ∈ asks1, l2.1 = l.1 ∧ ∀ o ∈ l2.2, o ∈ l.2 := by
    have h1 := @removeFilledOrders_orders upds1 asks1
    rw [hpass] at h1
    exact h1
  have hRe : ∀ q : ℚ, mapGet pass1 q = some [] → mapGet asks1 q = some [] ∨ q ∈ pass2 := by
    intro q
    have h1 := @removeFilledOrders_empty upds1 asks1 q
    rw [hpass] at h1
    exact h1
  have hRd : ∀ (q : ℚ) (os : List Order), mapGet asks1 q = some os → os ≠ [] →
      (∀ o ∈ os, (q, o.order_id) ∈ upds1) → q ∈ pass2 := by
    intro q os h2 h3 h4
    have h1 := @removeFilledOrders_doomed upds1 asks1 q os h2 h3 h4
    rw [hpass] at h1
    exact h1
  have hpass_keys : keysOf pass1 = keysOf book.asks := by
    rw [hRk, hlv.1]
  have hs1 : SortedKeys pass1 := by
    rw [SortedKeys, hpass_keys]
    exact hs
  have hsub := removePriceLevels_sublist (removes1 ++ pass2) pass1
  have hs3 := sortedKeys_of_sublist hsub hs1
  have hkeys3 : ∀ q ∈ keysOf (removePriceLevels pass1 (removes1 ++ pass2)),
      q ∈ keysOf book.asks := by
    intro q hq
    rw [← hpass_keys]
    exact (keysOf_sublist_of_sublist hsub).subset hq
  have hgood3 : GoodAskLevels (removePriceLevels pass1 (removes1 ++ pass2)) := by
    constructor
    · intro pl hpl hplnil
      have hmem1 : pl ∈ pass1 := hsub.subset hpl
      have hget : mapGet pass1 pl.1 = some [] := by
        have h1 := @mapGet_of_mem_sorted pass1 pl.1 pl.2 hs1 hmem1
        rw [hplnil] at h1
        exact h1
      rcases hRe pl.1 hget with h1 | h1
      · exact absurd rfl (hlv.2.1 (pl.1, []) (mapGet_mem h1))
      · exact keys_removePriceLevels_not_mem hs1 (List.mem_append_right _ h1)
          (List.mem_map_of_mem _ hpl)
    · intro pl hpl o ho
      obtain ⟨l1, hl1, heq1, hsub1⟩ := hRo pl (hsub.subset hpl)
      have h2 := hlv.2.2 l1 hl1 o (hsub1 o ho)
      rw [heq1]
      exact h2
  have hsum := matchAskLevels_sum hmal
  have hbounds := matchAskLevels_bounds hg.2 hmal hA0
  have hAsum : A - sumAmounts ts = rf := by linarith
  have hmaker := matchAskLevels_maker hmal
  refine ⟨_, ts, heq, hs3, hgood3, hkeys3, fun t ht => (hmaker t ht).1, by linarith [hbounds.1],
    ?_, matchAskLevels_ascending hs hmal, ?_⟩
  · intro hpos q hq
    rw [hAsum] at hpos
    obtain ⟨hasks1, hupds⟩ := matchAskLevels_fullfill hs hg hmal hA0 hpos
    by_contra hle
    push_neg at hle
    have hqb : q ∈ keysOf book.asks := hkeys3 q hq
    obtain ⟨osq, hosq⟩ := get_of_mem_keys hqb
    have hmemq : (q, osq) ∈ book.asks := mapGet_mem hosq
    have hosqne : osq ≠ [] := hg.1 (q, osq) hmemq
    have hidsq : ∀ o ∈ osq, (q, o.order_id) ∈ upds1 :=
      fun o ho => hupds (q, osq) hmemq hle o ho
    have hget1 : mapGet asks1 q = some osq := by
      rw [hasks1]
      exact hosq
    have hdoom := hRd q osq hget1 hosqne hidsq
    exact keys_removePriceLevels_not_mem hs1 (List.mem_append_right _ hdoom) hq
  · intro t ht
    obtain ⟨_, hle, l, hl, hpr, ho⟩ := hmaker t ht
    exact ⟨hle, l, hl, hpr, ho⟩

/-! ## Sell-side snapshot and write-back lemmas -/

theorem insertLevelDesc_perm (x : Level) (l : List Level) :
    (insertLevelDesc x l).Perm (x :: l) := by
  induction l with
  | nil => exact List.Perm.refl _
  | cons y ys ih =>
    by_cases h : y.1 < x.1
    · simp only [insertLevelDesc, if_pos h]
      exact List.Perm.refl _
    · simp only [insertLevelDesc, if_neg h]
      exact (ih.cons y).trans (List.Perm.swap x y ys)

theorem sortLevelsDesc_perm (l : List Level) : (sortLevelsDesc l).Perm l := by
  induction l with
  | nil => exact List.Perm.refl _
  | cons x xs ih =>
    exact (insertLevelDesc_perm x (sortLevelsDesc xs)).trans (ih.cons x)

theorem insertLevelDesc_sorted {x : Level} {l : List Level}
    (hs : List.Pairwise (fun a b : Level => b.1 ≤ a.1) l) :
    List.Pairwise (fun a b : Level => b.1 ≤ a.1) (insertLevelDesc x l) := by
  induction l with
  | nil => simp [insertLevelDesc]
  | cons y ys ih =>
    rw [List.pairwise_cons] at hs
    by_cases h : y.1 < x.1
    · simp only [insertLevelDesc, if_pos h]
      rw [List.pairwise_cons]
      refine ⟨?_, by rw [List.pairwise_cons]; exact hs⟩
      intro z hz
      rcases List.mem_cons.mp hz with h1 | h1
      · rw [h1]
        exact le_of_lt h
      · exact le_trans (hs.1 z h1) (le_of_lt h)
    · simp only [insertLevelDesc, if_neg h]
      rw [List.pairwise_cons]
      refine ⟨?_, ih hs.2⟩
      intro z hz
      have hz2 := (insertLevelDesc_perm x ys).mem_iff.mp hz
      rcases List.mem_cons.mp hz2 with h1 | h1
      · rw [h1]
        exact not_lt.mp h
      · exact hs.1 z h1

theorem sortLevelsDesc_sorted (l : List Level) :
    List.Pairwise (fun a b : Level => b.1 ≤ a.1) (sortLevelsDesc l) := by
  induction l with
  | nil => simp [sortLevelsDesc]
  | cons x xs ih => exact insertLevelDesc_sorted ih

theorem writeBackBid_good {os : List Order} {oid : String} {t b : ℚ} {p : ℚ} :
    (∀ o ∈ os, BidOrderAt p o) → ∀ o' ∈ (writeBackBid os oid t b).1, BidOrderAt p o' := by
  induction os with
  | nil => intro _; simp [writeBackBid]
  | cons o os ih =>
    intro hg
    by_cases h1 : o.order_id = oid
    · by_cases h2 : t < b
      · simp only [writeBackBid, if_pos h1, if_pos h2]
        intro o' ho'
        rcases List.mem_cons.mp ho' with h3 | h3
        · rw [h3]
          obtain ⟨hl, _, hside⟩ := hg o (by simp)
          exact ⟨hl, ⟨b - t, by simp [DecText.parse], by linarith⟩, hside⟩
        · exact hg o' (by simp [h3])
      · simp only [writeBackBid, if_pos h1, if_neg h2]
        exact hg
    · simp only [writeBackBid, if_neg h1]
      intro o' ho'
      rcases List.mem_cons.mp ho' with h3 | h3
      · exact hg o' (by simp [h3])
      · exact ih (fun o2 ho2 => hg o2 (by simp [ho2])) o' h3

theorem writeBackBid_length {os : List Order} {oid : String} {t b : ℚ} :
    (writeBackBid os oid t b).1.length = os.length := by
  induction os with
  | nil => rfl
  | cons o os ih =>
    by_cases h1 : o.order_id = oid
    · by_cases h2 : t < b <;> simp [writeBackBid, h1, h2]
    · simp [writeBackBid, h1, ih]

theorem writeBackBid_full {os : List Order} {oid : String} {t b : ℚ} (h : ¬ t < b) :
    (writeBackBid os oid t b).1 = os := by
  induction os with
  | nil => rfl
  | cons o os ih =>
    by_cases h1 : o.order_id = oid
    · simp [writeBackBid, h1, h]
    · simp [writeBackBid, h1, ih]

theorem writeBackBid_found {os : List Order} {oid : String} {t b : ℚ}
    (h : ¬ t < b) (hmem : oid ∈ os.map (fun o => o.order_id)) :
    (writeBackBid os oid t b).2 = [oid] := by
  induction os with
  | nil => simp at hmem
  | cons o os ih =>
    by_cases h1 : o.order_id = oid
    · simp [writeBackBid, h1, h]
    · simp only [List.map_cons, List.mem_cons] at hmem
      rcases hmem with h2 | h2
      · exact absurd h2.symm h1
      · simp [writeBackBid, h1, ih h2]

/-! ## Generic level-map well-formedness helpers -/

theorem levelsHold_mapSet {P : ℚ → Order → Prop} {m : List Level} {p : ℚ}
    {v : List Order} (hg : LevelsHold P m) (hvne : v ≠ []) (hv : ∀ o ∈ v, P p o) :
    LevelsHold P (mapSet m p v) := by
  constructor
  · intro pl hpl
    rcases mem_mapSet hpl with h1 | h1
    · exact hg.1 pl h1
    · rw [h1]
      exact hvne
  · intro pl hpl o ho
    rcases mem_mapSet hpl with h1 | h1
    · exact hg.2 pl h1 o ho
    · rw [h1] at ho
      rw [h1]
      exact hv o ho

theorem levelsHold_of_sublist {P : ℚ → Order → Prop} {m m' : List Level}
    (hsub : m'.Sublist m) (hg : LevelsHold P m) : LevelsHold P m' :=
  ⟨fun pl hpl => hg.1 pl (hsub.subset hpl), fun pl hpl => hg.2 pl (hsub.subset hpl)⟩

/-! ## Sell-side inner sweep (`matchBidOrders`) lemmas -/

theorem matchBidOrders_nil_inv {takerId pairName : String} {price r : ℚ}
    {bids : List Level} {marks : List String} {ts : List Trade} {bids2 : List Level}
    {marks2 : List String} {r2 : ℚ} :
    matchBidOrders takerId pairName price r [] bids marks = some (ts, bids2, marks2, r2) →
    ts = [] ∧ bids2 = bids ∧ marks2 = marks ∧ r2 = r := by
  intro h
  simp [matchBidOrders] at h
  obtain ⟨rfl, rfl, rfl, rfl⟩ := h
  exact ⟨rfl, rfl, rfl, rfl⟩

theorem matchBidOrders_cons_inv {takerId pairName : String} {price r : ℚ} {bo : Order}
    {bos : List Order} {bids : List Level} {marks : List String} {ts : List Trade}
    {bids2 : List Level} {marks2 : List String} {r2 : ℚ} :
    matchBidOrders takerId pairName price r (bo :: bos) bids marks =
      some (ts, bids2, marks2, r2) →
    (r ≤ 0 ∧ ts = [] ∧ bids2 = bids ∧ marks2 = marks ∧ r2 = r) ∨
    (¬ r ≤ 0 ∧ ∃ b, bo.amount.parse = some b ∧
      ∃ bids' marks',
        ((mapGet bids price = none ∧ bids' = bids ∧ marks' = marks) ∨
          (∃ os, mapGet bids price = some os ∧
            bids' = mapSet bids price (writeBackBid os bo.order_id (min r b) b).1 ∧
            marks' = marks ++ (writeBackBid os bo.order_id (min r b) b).2)) ∧
        ∃ ts', matchBidOrders takerId pairName price (r - min r b) bos bids' marks' =
            some (ts', bids2, marks2, r2) ∧
          ts = mkTrade takerId bo.order_id pairName price (min r b) :: ts') := by
  intro h
  by_cases hr : r ≤ 0
  · simp [matchBidOrders, hr] at h
    obtain ⟨rfl, rfl, rfl, rfl⟩ := h
    exact Or.inl ⟨hr, rfl, rfl, rfl, rfl⟩
  · right
    refine ⟨hr, ?_⟩
    cases hb : bo.amount.parse with
    | none => simp [matchBidOrders, hr, hb] at h
    | some b =>
      refine ⟨b, rfl, ?_⟩
      cases hgb : mapGet bids price with
      | none =>
        cases hrec : matchBidOrders takerId pairName price (r - min r b) bos bids marks with
        | none => simp [matchBidOrders, hr, hb, hgb, hrec] at h
        | some out =>
          obtain ⟨ts', bids2', marks2', r2'⟩ := out
          simp [matchBidOrders, hr, hb, hgb, hrec] at h
          obtain ⟨rfl, rfl, rfl, rfl⟩ := h
          exact ⟨bids, marks, Or.inl ⟨rfl, rfl, rfl⟩, ts', hrec, rfl⟩
      | some os =>
        cases hrec : matchBidOrders takerId pairName price (r - min r b) bos
            (mapSet bids price (writeBackBid os bo.order_id (min r b) b).1)
            (marks ++ (writeBackBid os bo.order_id (min r b) b).2) with
        | none => simp [matchBidOrders, hr, hb, hgb, hrec] at h
        | some out =>
          obtain ⟨ts', bids2', marks2', r2'⟩ := out
          simp [matchBidOrders, hr, hb, hgb, hrec] at h
          obtain ⟨rfl, rfl, rfl, rfl⟩ := h
          exact ⟨_, _, Or.inr ⟨os, rfl, rfl, rfl⟩, ts', hrec, rfl⟩

theorem matchBidOrders_success {takerId pairName : String} {price : ℚ} {bos : List Order} :
    (∀ bo ∈ bos, ∃ b, bo.amount.parse = some b) →
    ∀ r bids marks, ∃ out,
      matchBidOrders takerId pairName price r bos bids marks = some out := by
  induction bos with
  | nil => exact fun _ _ _ _ => ⟨_, rfl⟩
  | cons bo bos ih =>
    intro hv r bids marks
    cases hout : matchBidOrders takerId pairName price r (bo :: bos) bids marks with
    | some out => exact ⟨out, rfl⟩
    | none =>
      exfalso
      by_cases hr : r ≤ 0
      · simp [matchBidOrders, hr] at hout
      · obtain ⟨b, hb⟩ := hv bo (by simp)
        have hv2 : ∀ o2 ∈ bos, ∃ b2, o2.amount.parse = some b2 :=
          fun o2 ho2 => hv o2 (by simp [ho2])
        cases hgb : mapGet bids price with
        | none =>
          obtain ⟨⟨ts, bids2, marks2, r2⟩, hrec⟩ := ih hv2 (r - min r b) bids marks
          simp [matchBidOrders, hr, hb, hgb, hrec] at hout
        | some os =>
          obtain ⟨⟨ts, bids2, marks2, r2⟩, hrec⟩ := ih hv2 (r - min r b)
            (mapSet bids price (writeBackBid os bo.order_id (min r b) b).1)
            (marks ++ (writeBackBid os bo.order_id (min r b) b).2)
          simp [matchBidOrders, hr, hb, hgb, hrec] at hout

theorem matchBidOrders_sum {takerId pairName : String} {price : ℚ} {bos : List Order}
    {r : ℚ} {bids : List Level} {marks : List String} {ts : List Trade}
    {bids2 : List Level} {marks2 : List String} {r2 : ℚ} :
    matchBidOrders takerId pairName price r bos bids marks = some (ts, bids2, marks2, r2) →
    sumAmounts ts = r - r2 := by
  induction bos generalizing r bids marks ts bids2 marks2 r2 with
  | nil =>
    intro h
    obtain ⟨rfl, rfl, rfl, rfl⟩ := matchBidOrders_nil_inv h
    simp [sumAmounts]
  | cons bo bos ih =>
    intro h
    rcases matchBidOrders_cons_inv h with ⟨_, rfl, _, _, rfl⟩ | ⟨hr, b, hb, bids', marks', _, ts', hrec, rfl⟩
    · simp [sumAmounts]
    · have := ih hrec
      simp [sumAmounts, mkTrade] at this ⊢
      linarith

theorem matchBidOrders_bounds {takerId pairName : String} {price : ℚ} {bos : List Order}
    {r : ℚ} {bids : List Level} {marks : List String} {ts : List Trade}
    {bids2 : List Level} {marks2 : List String} {r2 : ℚ} :
    (∀ bo ∈ bos, ∃ b, bo.amount.parse = some b ∧ 0 < b) →
    matchBidOrders takerId pairName price r bos bids marks = some (ts, bids2, marks2, r2) →
    0 ≤ r → 0 ≤ r2 ∧ r2 ≤ r := by
  induction bos generalizing r bids marks ts bids2 marks2 r2 with
  | nil =>
    intro _ h hr0
    obtain ⟨rfl, rfl, rfl, rfl⟩ := matchBidOrders_nil_inv h
    exact ⟨hr0, le_rfl⟩
  | cons bo bos ih =>
    intro hv h hr0
    rcases matchBidOrders_cons_inv h with ⟨_, rfl, _, _, rfl⟩ | ⟨hr, b, hb, bids', marks', _, ts', hrec, rfl⟩
    · exact ⟨hr0, le_rfl⟩
    · obtain ⟨b2, hb2, hbpos⟩ := hv bo (by simp)
      rw [hb] at hb2
      injection hb2 with hb2
      subst hb2
      have hmin : 0 < min r b := lt_min (not_le.mp hr) hbpos
      have hrest := ih (fun o2 ho2 => hv o2 (by simp [ho2])) hrec
        (by linarith [min_le_left r b])
      exact ⟨hrest.1, by linarith [hrest.2]⟩

theorem matchBidOrders_keys {takerId pairName : String} {price : ℚ} {bos : List Order}
    {r : ℚ} {bids : List Level} {marks : List String} {ts : List Trade}
    {bids2 : List Level} {marks2 : List String} {r2 : ℚ} :
    matchBidOrders takerId pairName price r bos bids marks = some (ts, bids2, marks2, r2) →
    keysOf bids2 = keysOf bids := by
  induction bos generalizing r bids marks ts bids2 marks2 r2 with
  | nil =>
    intro h
    obtain ⟨_, rfl, _, _⟩ := matchBidOrders_nil_inv h
    rfl
  | cons bo bos ih =>
    intro h
    rcases matchBidOrders_cons_inv h with ⟨_, _, rfl, _, _⟩ | ⟨hr, b, hb, bids', marks', hstep, ts', hrec, rfl⟩
    · rfl
    · have h2 := ih hrec
      rcases hstep with ⟨_, rfl, _⟩ | ⟨os, hgb, rfl, _⟩
      · exact h2
      · rw [h2, keysOf_mapSet]

theorem matchBidOrders_local {takerId pairName : String} {price : ℚ} {bos : List Order}
    {r : ℚ} {bids : List Level} {marks : List String} {ts : List Trade}
    {bids2 : List Level} {marks2 : List String} {r2 : ℚ} :
    matchBidOrders takerId pairName price r bos bids marks = some (ts, bids2, marks2, r2) →
    ∀ q, q ≠ price → mapGet bids2 q = mapGet bids q := by
  induction bos generalizing r bids marks ts bids2 marks2 r2 with
  | nil =>
    intro h q _
    obtain ⟨_, rfl, _, _⟩ := matchBidOrders_nil_inv h
    rfl
  | cons bo bos ih =>
    intro h q hq
    rcases matchBidOrders_cons_inv h with ⟨_, _, rfl, _, _⟩ | ⟨hr, b, hb, bids', marks', hstep, ts', hrec, rfl⟩
    · rfl
    · have h2 := ih hrec q hq
      rcases hstep with ⟨_, rfl, _⟩ | ⟨os, hgb, rfl, _⟩
      · exact h2
      · rw [h2, mapGet_set_ne hq]

theorem matchBidOrders_good {takerId pairName : String} {price : ℚ} {bos : List Order}
    {r : ℚ} {bids : List Level} {marks : List String} {ts : List Trade}
    {bids2 : List Level} {marks2 : List String} {r2 : ℚ} :
    GoodBidLevels bids →
    matchBidOrders takerId pairName price r bos bids marks = some (ts, bids2, marks2, r2) →
    GoodBidLevels bids2 := by
  induction bos generalizing r bids marks ts bids2 marks2 r2 with
  | nil =>
    intro hg h
    obtain ⟨_, rfl, _, _⟩ := matchBidOrders_nil_inv h
    exact hg
  | cons bo bos ih =>
    intro hg h
    rcases matchBidOrders_cons_inv h with ⟨_, _, rfl, _, _⟩ | ⟨hr, b, hb, bids', marks', hstep, ts', hrec, rfl⟩
    · exact hg
    · rcases hstep with ⟨_, rfl, _⟩ | ⟨os, hgb, rfl, _⟩
      · exact ih hg hrec
      · refine ih ?_ hrec
        have hmem : (price, os) ∈ bids := mapGet_mem hgb
        have hosne : os ≠ [] := hg.1 (price, os) hmem
        have hosgood : ∀ o ∈ os, BidOrderAt price o := hg.2 (price, os) hmem
        refine levelsHold_mapSet hg ?_ (writeBackBid_good hosgood)
        intro hc
        have := @writeBackBid_length os bo.order_id (min r b) b
        rw [hc] at this
        cases os with
        | nil => exact hosne rfl
        | cons o os' => simp at this

theorem matchBidOrders_marks {takerId pairName : String} {price : ℚ} {bos : List Order}
    {r : ℚ} {bids : List Level} {marks : List String} {ts : List Trade}
    {bids2 : List Level} {marks2 : List String} {r2 : ℚ} :
    matchBidOrders takerId pairName price r bos bids marks = some (ts, bids2, marks2, r2) →
    ∃ extra, marks2 = marks ++ extra := by
  induction bos generalizing r bids marks ts bids2 marks2 r2 with
  | nil =>
    intro h
    obtain ⟨_, _, rfl, _⟩ := matchBidOrders_nil_inv h
    exact ⟨[], by simp⟩
  | cons bo bos ih =>
    intro h
    rcases matchBidOrders_cons_inv h with ⟨_, _, _, rfl, _⟩ | ⟨hr, b, hb, bids', marks', hstep, ts', hrec, rfl⟩
    · exact ⟨[], by simp⟩
    · obtain ⟨extra, hex⟩ := ih hrec
      rcases hstep with ⟨_, _, rfl⟩ | ⟨os, hgb, _, rfl⟩
      · exact ⟨extra, hex⟩
      · exact ⟨(writeBackBid os bo.order_id (min r b) b).2 ++ extra, by
          rw [hex, List.append_assoc]⟩

theorem matchBidOrders_fullfill {takerId pairName : String} {price : ℚ} {bos : List Order}
    {r : ℚ} {bids : List Level} {marks : List String} {ts : List Trade}
    {bids2 : List Level} {marks2 : List String} {r2 : ℚ} :
    (∀ bo ∈ bos, ∃ b, bo.amount.parse = some b ∧ 0 < b) →
    matchBidOrders takerId pairName price r bos bids marks = some (ts, bids2, marks2, r2) →
    0 < r2 →
    (∀ bo ∈ bos, ∃ os, mapGet bids price = some os ∧
      bo.order_id ∈ os.map (fun o => o.order_id)) →
    bids2 = bids ∧ marks ⊆ marks2 ∧ ∀ bo ∈ bos, bo.order_id ∈ marks2 := by
  induction bos generalizing r bids marks ts bids2 marks2 r2 with
  | nil =>
    intro _ h _ _
    obtain ⟨_, rfl, rfl, _⟩ := matchBidOrders_nil_inv h
    exact ⟨rfl, fun x hx => hx, by simp⟩
  | cons bo bos ih =>
    intro hv h hr2 hfind
    rcases matchBidOrders_cons_inv h with ⟨hr, _, rfl, rfl, rfl⟩ | ⟨hr, b, hb, bids', marks', hstep, ts', hrec, rfl⟩
    · exact absurd hr2 (not_lt.mpr hr)
    · obtain ⟨b2, hb2, hbpos⟩ := hv bo (by simp)
      rw [hb] at hb2
      injection hb2 with hb2
      subst hb2
      have hv2 : ∀ o2 ∈ bos, ∃ b2, o2.amount.parse = some b2 ∧ 0 < b2 :=
        fun o2 ho2 => hv o2 (by simp [ho2])
      have hbnd := matchBidOrders_bounds hv2 hrec (by linarith [min_le_left r b])
      have htb : ¬ min r b < b := by
        intro hlt
        have hminr : min r b = r := by
          rcases min_cases r b with ⟨h1, _⟩ | ⟨h1, _⟩
          · exact h1
          · rw [h1] at hlt
            exact absurd hlt (lt_irrefl b)
        rw [hminr] at hbnd
        have := hbnd.2
        linarith
      obtain ⟨os0, hgb0, hmem0⟩ := hfind bo (by simp)
      rcases hstep with ⟨hgbnone, _, _⟩ | ⟨os, hgb, hbids', hmarks'⟩
      · rw [hgb0] at hgbnone
        cases hgbnone
      · rw [hgb0] at hgb
        injection hgb with hgb
        subst hgb
        rw [writeBackBid_full htb] at hbids'
        rw [mapSet_self hgb0] at hbids'
        rw [writeBackBid_found htb hmem0] at hmarks'
        rw [hbids', hmarks'] at hrec
        have hfind2 : ∀ bo2 ∈ bos, ∃ os, mapGet bids price = some os ∧
            bo2.order_id ∈ os.map (fun o => o.order_id) :=
          fun bo2 hbo2 => hfind bo2 (by simp [hbo2])
        obtain ⟨hbids2, hsub2, hall2⟩ := ih hv2 hrec hr2 hfind2
        refine ⟨hbids2, ?_, ?_⟩
        · intro x hx
          exact hsub2 (List.mem_append_left _ hx)
        · intro bo2 hbo2
          rcases List.mem_cons.mp hbo2 with h1 | h1
          · rw [h1]
            exact hsub2 (List.mem_append_right _ (by simp))
          · exact hall2 bo2 h1

theorem matchBidOrders_takers {takerId pairName : String} {price : ℚ} {bos : List Order}
    {r : ℚ} {bids : List Level} {marks : List String} {ts : List Trade}
    {bids2 : List Level} {marks2 : List String} {r2 : ℚ} :
    matchBidOrders takerId pairName price r bos bids marks = some (ts, bids2, marks2, r2) →
    ∀ t ∈ ts, t.taker_order_id = takerId ∧ t.price = price ∧ t.pair = pairName := by
  induction bos generalizing r bids marks ts bids2 marks2 r2 with
  | nil =>
    intro h
    obtain ⟨rfl, _, _, _⟩ := matchBidOrders_nil_inv h
    simp
  | cons bo bos ih =>
    intro h
    rcases matchBidOrders_cons_inv h with ⟨_, rfl, _, _, _⟩ |
      ⟨hr, b, hb, bids', marks', _, ts', hrec, rfl⟩
    · simp
    · intro t ht
      rcases List.mem_cons.mp ht with h1 | h1
      · subst h1
        simp [mkTrade]
      · exact ih hrec t h1

theorem matchBidOrders_makers {takerId pairName : String} {price : ℚ} {bos : List Order}
    {r : ℚ} {bids : List Level} {marks : List String} {ts : List Trade}
    {bids2 : List Level} {marks2 : List String} {r2 : ℚ} :
    matchBidOrders takerId pairName price r bos bids marks = some (ts, bids2, marks2, r2) →
    ts.map (fun t => t.maker_order_id) = (bos.take ts.length).map (fun o => o.order_id) := by
  induction bos generalizing r bids marks ts bids2 marks2 r2 with
  | nil =>
    intro h
    obtain ⟨rfl, _, _, _⟩ := matchBidOrders_nil_inv h
    simp
  | cons bo bos ih =>
    intro h
    rcases matchBidOrders_cons_inv h with ⟨_, rfl, _, _, _⟩ |
      ⟨hr, b, hb, bids', marks', _, ts', hrec, rfl⟩
    · simp
    · simp [mkTrade, ih hrec]

theorem matchBidOrders_amount {takerId pairName : String} {price : ℚ} {bos : List Order}
    {r : ℚ} {bids : List Level} {marks : List String} {ts : List Trade}
    {bids2 : List Level} {marks2 : List String} {r2 : ℚ} :
    matchBidOrders takerId pairName price r bos bids marks = some (ts, bids2, marks2, r2) →
    ∀ i, i < ts.length →
      ∃ bo b, bos.get? i = some bo ∧ bo.amount.parse = some b ∧
        ts.get? i = some (mkTrade takerId bo.order_id pairName price
          (min (r - sumAmounts (ts.take i)) b)) := by
  induction bos generalizing r bids marks ts bids2 marks2 r2 with
  | nil =>
    intro h
    obtain ⟨rfl, _, _, _⟩ := matchBidOrders_nil_inv h
    simp
  | cons bo bos ih =>
    intro h
    rcases matchBidOrders_cons_inv h with ⟨_, rfl, _, _, _⟩ |
      ⟨hr, b, hb, bids', marks', _, ts', hrec, rfl⟩
    · simp
    · intro i hi
      cases i with
      | zero => exact ⟨bo, b, rfl, hb, by simp [sumAmounts]⟩
      | succ j =>
        have hj : j < ts'.length := by simpa using hi
        obtain ⟨bo', b', h1, h2, h3⟩ := ih hrec j hj
        refine ⟨bo', b', by simpa using h1, h2, ?_⟩
        have harith :
            r - min r b - sumAmounts (ts'.take j) =
            r - sumAmounts ((mkTrade takerId bo.order_id pairName price
              (min r b) :: ts').take (j + 1)) := by
          simp [sumAmounts, mkTrade]
          ring
        simpa [harith] using h3

/-! ## Sell-side level sweep (`matchBidLevels`) lemmas -/

theorem matchBidLevels_nil_inv {takerId pairName : String} {r : ℚ} {bids : List Level}
    {ts : List Trade} {bids3 : List Level} {r3 : ℚ} :
    matchBidLevels takerId pairName r [] bids = some (ts, bids3, r3) →
    ts = [] ∧ bids3 = bids ∧ r3 = r := by
  intro h
  simp [matchBidLevels] at h
  obtain ⟨rfl, rfl, rfl⟩ := h
  exact ⟨rfl, rfl, rfl⟩

theorem matchBidLevels_cons_inv {takerId pairName : String} {r p : ℚ} {sos : List Order}
    {rest : List Level} {bids : List Level} {ts : List Trade} {bids3 : List Level}
    {r3 : ℚ} :
    matchBidLevels takerId pairName r ((p, sos) :: rest) bids = some (ts, bids3, r3) →
    (r ≤ 0 ∧ ts = [] ∧ bids3 = bids ∧ r3 = r) ∨
    (¬ r ≤ 0 ∧ ∃ ts1 bids1 marks r1,
      matchBidOrders takerId pairName p r sos bids [] = some (ts1, bids1, marks, r1) ∧
      ∃ ts3, matchBidLevels takerId pairName r1 rest (retainLevel bids1 p marks) =
          some (ts3, bids3, r3) ∧
        ts = ts1 ++ ts3) := by
  intro h
  by_cases hr : r ≤ 0
  · simp [matchBidLevels, hr] at h
    obtain ⟨rfl, rfl, rfl⟩ := h
    exact Or.inl ⟨hr, rfl, rfl, rfl⟩
  · right
    refine ⟨hr, ?_⟩
    cases hmbo : matchBidOrders takerId pairName p r sos bids [] with
    | none => simp [matchBidLevels, hr, hmbo] at h
    | some out1 =>
      obtain ⟨ts1, bids1, marks, r1⟩ := out1
      refine ⟨ts1, bids1, marks, r1, rfl, ?_⟩
      cases hrec : matchBidLevels takerId pairName r1 rest (retainLevel bids1 p marks) with
      | none => simp [matchBidLevels, hr, hmbo, hrec] at h
      | some out3 =>
        obtain ⟨ts3, bids3', r3'⟩ := out3
        simp [matchBidLevels, hr, hmbo, hrec] at h
        obtain ⟨rfl, rfl, rfl⟩ := h
        exact ⟨ts3, rfl, rfl⟩

/-! ### `retainLevel` lemmas -/

theorem retainLevel_keys_sub {bids1 : List Level} {p : ℚ} {marks : List String} :
    ∀ q ∈ keysOf (retainLevel bids1 p marks), q ∈ keysOf bids1 := by
  intro q hq
  rw [retainLevel] at hq
  cases hgb : mapGet bids1 p with
  | none =>
    rw [hgb] at hq
    exact hq
  | some os =>
    rw [hgb] at hq
    by_cases he : (os.filter (fun o => decide (o.order_id ∉ marks))).isEmpty
    · simp only [if_pos he] at hq
      exact (keysOf_sublist_of_sublist (mapRemove_sublist bids1 p)).subset hq
    · simp only [if_neg he] at hq
      rw [keysOf_mapSet] at hq
      exact hq

theorem retainLevel_sorted {bids1 : List Level} {p : ℚ} {marks : List String}
    (hs : SortedKeys bids1) : SortedKeys (retainLevel bids1 p marks) := by
  rw [retainLevel]
  cases hgb : mapGet bids1 p with
  | none => exact hs
  | some os =>
    by_cases he : (os.filter (fun o => decide (o.order_id ∉ marks))).isEmpty
    · simp only [if_pos he]
      exact sortedKeys_of_sublist (mapRemove_sublist bids1 p) hs
    · simp only [if_neg he]
      rw [SortedKeys, keysOf_mapSet]
      exact hs

theorem retainLevel_good {bids1 : List Level} {p : ℚ} {marks : List String}
    (hg : GoodBidLevels bids1) : GoodBidLevels (retainLevel bids1 p marks) := by
  rw [retainLevel]
  cases hgb : mapGet bids1 p with
  | none => exact hg
  | some os =>
    by_cases he : (os.filter (fun o => decide (o.order_id ∉ marks))).isEmpty
    · simp only [if_pos he]
      exact levelsHold_of_sublist (mapRemove_sublist bids1 p) hg
    · simp only [if_neg he]
      refine levelsHold_mapSet hg ?_ ?_
      · intro hc
        rw [hc] at he
        simp at he
      · intro o ho
        exact hg.2 (p, os) (mapGet_mem hgb) o (List.mem_of_mem_filter ho)

theorem retainLevel_local {bids1 : List Level} {p : ℚ} {marks : List String} {q : ℚ}
    (hq : q ≠ p) : mapGet (retainLevel bids1 p marks) q = mapGet bids1 q := by
  rw [retainLevel]
  cases hgb : mapGet bids1 p with
  | none => rfl
  | some os =>
    by_cases he : (os.filter (fun o => decide (o.order_id ∉ marks))).isEmpty
    · simp only [if_pos he]
      exact mapGet_remove_ne hq
    · simp only [if_neg he]
      exact mapGet_set_ne hq

theorem retainLevel_removes {bids1 : List Level} {p : ℚ} {marks : List String}
    {os : List Order} (hs : SortedKeys bids1) (hgb : mapGet bids1 p = some os)
    (hall : ∀ o ∈ os, o.order_id ∈ marks) :
    p ∉ keysOf (retainLevel bids1 p marks) := by
  rw [retainLevel, hgb]
  have he : (os.filter (fun o => decide (o.order_id ∉ marks))).isEmpty = true := by
    rw [List.isEmpty_iff, List.filter_eq_nil]
    intro o ho
    simp [hall o ho]
  simp only [if_pos he]
  exact not_mem_keys_mapRemove_self hs

theorem matchBidLevels_success {takerId pairName : String} {snap : List Level} :
    (∀ l ∈ snap, ∀ o ∈ l.2, ∃ b, o.amount.parse = some b) →
    ∀ r bids, ∃ out, matchBidLevels takerId pairName r snap bids = some out := by
  induction snap with
  | nil => exact fun _ _ _ => ⟨_, rfl⟩
  | cons hd rest ih =>
    obtain ⟨p, sos⟩ := hd
    intro hv r bids
    cases hout : matchBidLevels takerId pairName r ((p, sos) :: rest) bids with
    | some out => exact ⟨out, rfl⟩
    | none =>
      exfalso
      by_cases hr : r ≤ 0
      · simp [matchBidLevels, hr] at hout
      · obtain ⟨⟨ts1, bids1, marks, r1⟩, hmbo⟩ :=
          @matchBidOrders_success takerId pairName p sos
            (fun o ho => hv (p, sos) (by simp) o ho) r bids []
        obtain ⟨⟨ts3, bids3, r3⟩, hrec⟩ :=
          ih (fun l hl => hv l (by simp [hl])) r1 (retainLevel bids1 p marks)
        simp [matchBidLevels, hr, hmbo, hrec] at hout

theorem matchBidLevels_sum {takerId pairName : String} {snap : List Level} {r : ℚ}
    {bids : List Level} {ts : List Trade} {bids3 : List Level} {r3 : ℚ} :
    matchBidLevels takerId pairName r snap bids = some (ts, bids3, r3) →
    sumAmounts ts = r - r3 := by
  induction snap generalizing r bids ts bids3 r3 with
  | nil =>
    intro h
    obtain ⟨rfl, _, rfl⟩ := matchBidLevels_nil_inv h
    simp [sumAmounts]
  | cons hd rest ih =>
    obtain ⟨p, sos⟩ := hd
    intro h
    rcases matchBidLevels_cons_inv h with ⟨_, rfl, _, rfl⟩ |
      ⟨hr, ts1, bids1, marks, r1, hmbo, ts3, hrec, rfl⟩
    · simp [sumAmounts]
    · have h1 := matchBidOrders_sum hmbo
      have h3 := ih hrec
      rw [sumAmounts_append, h1, h3]
      ring

theorem matchBidLevels_bounds {takerId pairName : String} {snap : List Level} {r : ℚ}
    {bids : List Level} {ts : List Trade} {bids3 : List Level} {r3 : ℚ} :
    (∀ l ∈ snap, ∀ o ∈ l.2, ∃ b, o.amount.parse = some b ∧ 0 < b) →
    matchBidLevels takerId pairName r snap bids = some (ts, bids3, r3) →
    0 ≤ r → 0 ≤ r3 ∧ r3 ≤ r := by
  induction snap generalizing r bids ts bids3 r3 with
  | nil =>
    intro _ h hr0
    obtain ⟨_, _, rfl⟩ := matchBidLevels_nil_inv h
    exact ⟨hr0, le_rfl⟩
  | cons hd rest ih =>
    obtain ⟨p, sos⟩ := hd
    intro hv h hr0
    rcases matchBidLevels_cons_inv h with ⟨_, _, _, rfl⟩ |
      ⟨hr, ts1, bids1, marks, r1, hmbo, ts3, hrec, rfl⟩
    · exact ⟨hr0, le_rfl⟩
    · have h1 := matchBidOrders_bounds (fun o ho => hv (p, sos) (by simp) o ho) hmbo hr0
      have h3 := ih (fun l hl => hv l (by simp [hl])) hrec h1.1
      exact ⟨h3.1, h3.2.trans h1.2⟩

theorem matchBidLevels_keys_sub {takerId pairName : String} {snap : List Level} {r : ℚ}
    {bids : List Level} {ts : List Trade} {bids3 : List Level} {r3 : ℚ} :
    matchBidLevels takerId pairName r snap bids = some (ts, bids3, r3) →
    ∀ q ∈ keysOf bids3, q ∈ keysOf bids := by
  induction snap generalizing r bids ts bids3 r3 with
  | nil =>
    intro h
    obtain ⟨_, rfl, _⟩ := matchBidLevels_nil_inv h
    exact fun q hq => hq
  | cons hd rest ih =>
    obtain ⟨p, sos⟩ := hd
    intro h
    rcases matchBidLevels_cons_inv h with ⟨_, _, rfl, _⟩ |
      ⟨hr, ts1, bids1, marks, r1, hmbo, ts3, hrec, rfl⟩
    · exact fun q hq => hq
    · intro q hq
      have h1 := ih hrec q hq
      have h2 := retainLevel_keys_sub q h1
      rw [matchBidOrders_keys hmbo] at h2
      exact h2

theorem matchBidLevels_sorted {takerId pairName : String} {snap : List Level} {r : ℚ}
    {bids : List Level} {ts : List Trade} {bids3 : List Level} {r3 : ℚ} :
    matchBidLevels takerId pairName r snap bids = some (ts, bids3, r3) →
    SortedKeys bids → SortedKeys bids3 := by
  induction snap generalizing r bids ts bids3 r3 with
  | nil =>
    intro h hs
    obtain ⟨_, rfl, _⟩ := matchBidLevels_nil_inv h
    exact hs
  | cons hd rest ih =>
    obtain ⟨p, sos⟩ := hd
    intro h hs
    rcases matchBidLevels_cons_inv h with ⟨_, _, rfl, _⟩ |
      ⟨hr, ts1, bids1, marks, r1, hmbo, ts3, hrec, rfl⟩
    · exact hs
    · have hs1 : SortedKeys bids1 := by
        rw [SortedKeys, matchBidOrders_keys hmbo]
        exact hs
      exact ih hrec (retainLevel_sorted hs1)

theorem matchBidLevels_good {takerId pairName : String} {snap : List Level} {r : ℚ}
    {bids : List Level} {ts : List Trade} {bids3 : List Level} {r3 : ℚ} :
    matchBidLevels takerId pairName r snap bids = some (ts, bids3, r3) →
    GoodBidLevels bids → GoodBidLevels bids3 := by
  induction snap generalizing r bids ts bids3 r3 with
  | nil =>
    intro h hg
    obtain ⟨_, rfl, _⟩ := matchBidLevels_nil_inv h
    exact hg
  | cons hd rest ih =>
    obtain ⟨p, sos⟩ := hd
    intro h hg
    rcases matchBidLevels_cons_inv h with ⟨_, _, rfl, _⟩ |
      ⟨hr, ts1, bids1, marks, r1, hmbo, ts3, hrec, rfl⟩
    · exact hg
    · exact ih hrec (retainLevel_good (matchBidOrders_good hg hmbo))

theorem matchBidLevels_local {takerId pairName : String} {snap : List Level} {r : ℚ}
    {bids : List Level} {ts : List Trade} {bids3 : List Level} {r3 : ℚ} :
    matchBidLevels takerId pairName r snap bids = some (ts, bids3, r3) →
    ∀ q, q ∉ snap.map (fun l => l.1) → mapGet bids3 q = mapGet bids q := by
  induction snap generalizing r bids ts bids3 r3 with
  | nil =>
    intro h q _
    obtain ⟨_, rfl, _⟩ := matchBidLevels_nil_inv h
    rfl
  | cons hd rest ih =>
    obtain ⟨p, sos⟩ := hd
    intro h q hq
    rcases matchBidLevels_cons_inv h with ⟨_, _, rfl, _⟩ |
      ⟨hr, ts1, bids1, marks, r1, hmbo, ts3, hrec, rfl⟩
    · rfl
    · simp only [List.map_cons, List.mem_cons] at hq
      push_neg at hq
      rw [ih hrec q hq.2, retainLevel_local hq.1, matchBidOrders_local hmbo q hq.1]

theorem matchBidLevels_fullfill {takerId pairName : String} {snap : List Level} {r : ℚ}
    {bids : List Level} {ts : List Trade} {bids3 : List Level} {r3 : ℚ} :
    (∀ l ∈ snap, ∀ o ∈ l.2, ∃ b, o.amount.parse = some b ∧ 0 < b) →
    (snap.map (fun l => l.1)).Nodup →
    SortedKeys bids →
    (∀ l ∈ snap, mapGet bids l.1 = some l.2) →
    matchBidLevels takerId pairName r snap bids = some (ts, bids3, r3) →
    0 ≤ r → 0 < r3 →
    ∀ l ∈ snap, l.1 ∉ keysOf bids3 := by
  induction snap generalizing r bids ts bids3 r3 with
  | nil =>
    intro _ _ _ _ _ _ _ l hl
    cases hl
  | cons hd rest ih =>
    obtain ⟨p, sos⟩ := hd
    intro hv hnd hs hagree h hr0 hr3
    rcases matchBidLevels_cons_inv h with ⟨hle, _, _, rfl⟩ |
      ⟨hr, ts1, bids1, marks, r1, hmbo, ts3, hrec, rfl⟩
    · exact absurd hr3 (not_lt.mpr hle)
    · have hvsos : ∀ o ∈ sos, ∃ b, o.amount.parse = some b ∧ 0 < b :=
        fun o ho => hv (p, sos) (by simp) o ho
      have hvrest : ∀ l ∈ rest, ∀ o ∈ l.2, ∃ b, o.amount.parse = some b ∧ 0 < b :=
        fun l hl o ho => hv l (by simp [hl]) o ho
      have hbnd1 := matchBidOrders_bounds hvsos hmbo hr0
      have hbnd3 := matchBidLevels_bounds hvrest hrec hbnd1.1
      have hr1pos : 0 < r1 := lt_of_lt_of_le hr3 hbnd3.2
      have hgbp : mapGet bids p = some sos := hagree (p, sos) (by simp)
      have hfind : ∀ bo ∈ sos, ∃ os, mapGet bids p = some os ∧
          bo.order_id ∈ os.map (fun o => o.order_id) :=
        fun bo hbo => ⟨sos, hgbp, List.mem_map_of_mem _ hbo⟩
      obtain ⟨hbids1, _, hall⟩ := matchBidOrders_fullfill hvsos hmbo hr1pos hfind
      simp only [List.map_cons, List.nodup_cons] at hnd
      have hs1 : SortedKeys bids1 := by
        rw [SortedKeys, matchBidOrders_keys hmbo]
        exact hs
      have hretp : p ∉ keysOf (retainLevel bids1 p marks) := by
        refine retainLevel_removes hs1 ?_ hall
        rw [hbids1]
        exact hgbp
      have hagree2 : ∀ l ∈ rest, mapGet (retainLevel bids1 p marks) l.1 = some l.2 := by
        intro l hl
        have hlp : l.1 ≠ p := by
          intro hc
          exact hnd.1 (hc ▸ List.mem_map_of_mem _ hl)
        rw [retainLevel_local hlp, hbids1]
        exact hagree l (by simp [hl])
      have hihs := ih hvrest hnd.2 (retainLevel_sorted hs1) hagree2 hrec hbnd1.1 hr3
      intro l hl
      rcases List.mem_cons.mp hl with h1 | h1
      · rw [h1]
        intro hc
        exact hretp (matchBidLevels_keys_sub hrec p hc)
      · exact hihs l h1

theorem matchBidLevels_maker {takerId pairName : String} {snap : List Level} {r : ℚ}
    {bids : List Level} {ts : List Trade} {bids3 : List Level} {r3 : ℚ} :
    matchBidLevels takerId pairName r snap bids = some (ts, bids3, r3) →
    ∀ t ∈ ts, t.taker_order_id = takerId ∧
      ∃ l ∈ snap, t.price = l.1 ∧ ∃ o ∈ l.2, o.order_id = t.maker_order_id := by
  induction snap generalizing r bids ts bids3 r3 with
  | nil =>
    intro h
    obtain ⟨rfl, _, _⟩ := matchBidLevels_nil_inv h
    simp
  | cons hd rest ih =>
    obtain ⟨p, sos⟩ := hd
    intro h
    rcases matchBidLevels_cons_inv h with ⟨_, rfl, _, _⟩ |
      ⟨hr, ts1, bids1, marks, r1, hmbo, ts3, hrec, rfl⟩
    · simp
    · intro t ht
      rcases List.mem_append.mp ht with h1 | h1
      · obtain ⟨htak, hpr, _⟩ := matchBidOrders_takers hmbo t h1
        exact ⟨htak, (p, sos), by simp, hpr, mem_of_maker (matchBidOrders_makers hmbo) h1⟩
      · obtain ⟨htak, l, hl, hrest⟩ := ih hrec t h1
        exact ⟨htak, l, by simp [hl], hrest⟩

theorem chain_ge_of_const {l : List ℚ} {c : ℚ} (h : ∀ x ∈ l, x = c) :
    List.Chain' (fun x y => y ≤ x) l := by
  induction l with
  | nil => simp
  | cons x xs ih =>
    cases xs with
    | nil => simp
    | cons y ys =>
      rw [List.chain'_cons]
      exact ⟨le_of_eq (by rw [h x (by simp), h y (by simp)]),
        ih (fun z hz => h z (by simp [hz]))⟩

theorem matchBidLevels_descending {takerId pairName : String} {snap : List Level}
    {r : ℚ} {bids : List Level} {ts : List Trade} {bids3 : List Level} {r3 : ℚ} :
    List.Pairwise (fun a b : Level => b.1 ≤ a.1) snap →
    matchBidLevels takerId pairName r snap bids = some (ts, bids3, r3) →
    List.Chain' (fun x y => y ≤ x) (ts.map (fun t => t.price)) := by
  induction snap generalizing r bids ts bids3 r3 with
  | nil =>
    intro _ h
    obtain ⟨rfl, _, _⟩ := matchBidLevels_nil_inv h
    simp
  | cons hd rest ih =>
    obtain ⟨p, sos⟩ := hd
    intro hp h
    rw [List.pairwise_cons] at hp
    rcases matchBidLevels_cons_inv h with ⟨_, rfl, _, _⟩ |
      ⟨hr, ts1, bids1, marks, r1, hmbo, ts3, hrec, rfl⟩
    · simp
    · rw [List.map_append, List.chain'_append]
      have hconst : ∀ x ∈ ts1.map (fun t => t.price), x = p := by
        intro x hx
        obtain ⟨t, ht, rfl⟩ := List.mem_map.mp hx
        exact (matchBidOrders_takers hmbo t ht).2.1
      refine ⟨chain_ge_of_const hconst, ih hp.2 hrec, ?_⟩
      intro x hx y hy
      have hxp : x = p := hconst x (by
        obtain ⟨_, h2⟩ := List.mem_getLast?_eq_getLast hx
        exact h2 ▸ List.getLast_mem _)
      have hyl : y ∈ ts3.map (fun t => t.price) := by
        have := List.eq_cons_of_mem_head? hy
        rw [this]
        simp
      obtain ⟨t, ht3, rfl⟩ := List.mem_map.mp hyl
      obtain ⟨_, l, hl, hpr, _⟩ := matchBidLevels_maker hrec t ht3
      rw [hxp, hpr]
      exact hp.1 l hl

/-! ## `match_sell_order` master specification -/

theorem match_sell_spec {book : OrderBook} {order : Order} {A S : ℚ}
    (hA : order.amount.parse = some A) (hS : order.limit_price.parse = some S)
    (hs : SortedKeys book.bids) (hg : GoodBidLevels book.bids) (hA0 : 0 ≤ A) :
    ∃ bids3 ts,
      book.match_sell_order order = some ({ book with bids := bids3 }, ts) ∧
      SortedKeys bids3 ∧ GoodBidLevels bids3 ∧
      (∀ q ∈ keysOf bids3, q ∈ keysOf book.bids) ∧
      (∀ t ∈ ts, t.taker_order_id = order.order_id) ∧
      0 ≤ A - sumAmounts ts ∧
      (0 < A - sumAmounts ts → ∀ q ∈ keysOf bids3, q < S) ∧
      List.Chain' (fun x y => y ≤ x) (ts.map (fun t => t.price)) ∧
      (∀ t ∈ ts, S ≤ t.price ∧ ∃ l ∈ book.bids, t.price = l.1 ∧
        ∃ o ∈ l.2, o.order_id = t.maker_order_id) := by
  have hperm := sortLevelsDesc_perm (book.bids.filter (fun pl => decide (S ≤ pl.1)))
  have hsnap : ∀ l ∈ sortLevelsDesc (book.bids.filter (fun pl => decide (S ≤ pl.1))),
      l ∈ book.bids ∧ S ≤ l.1 := by
    intro l hl
    have h1 := hperm.mem_iff.mp hl
    obtain ⟨h2, h3⟩ := List.mem_filter.mp h1
    exact ⟨h2, of_decide_eq_true h3⟩
  have hvsnap : ∀ l ∈ sortLevelsDesc (book.bids.filter (fun pl => decide (S ≤ pl.1))),
      ∀ o ∈ l.2, ∃ b, o.amount.parse = some b ∧ 0 < b := by
    intro l hl o ho
    exact (hg.2 l (hsnap l hl).1 o ho).2.1
  obtain ⟨⟨ts, bids3, rf⟩, hmbl⟩ :=
    @matchBidLevels_success order.order_id order.pair
      (sortLevelsDesc (book.bids.filter (fun pl => decide (S ≤ pl.1))))
      (fun l hl o ho => ⟨((hvsnap l hl o ho).choose), (hvsnap l hl o ho).choose_spec.1⟩)
      A book.bids
  have heq : book.match_sell_order order = some ({ book with bids := bids3 }, ts) := by
    simp [OrderBook.match_sell_order, hA, hS, hmbl]
  have hsum := matchBidLevels_sum hmbl
  have hbounds := matchBidLevels_bounds hvsnap hmbl hA0
  have hAsum : A - sumAmounts ts = rf := by linarith
  have hmaker := matchBidLevels_maker hmbl
  refine ⟨bids3, ts, heq, matchBidLevels_sorted hmbl hs, matchBidLevels_good hmbl hg,
    matchBidLevels_keys_sub hmbl, fun t ht => (hmaker t ht).1, by linarith [hbounds.1],
    ?_, matchBidLevels_descending (sortLevelsDesc_sorted _) hmbl, ?_⟩
  · intro hpos q hq
    rw [hAsum] at hpos
    have hnd : ((sortLevelsDesc (book.bids.filter (fun pl => decide (S ≤ pl.1)))).map
        (fun l => l.1)).Nodup := by
      have h1 : (keysOf book.bids).Nodup := hs.imp (fun hlt => ne_of_lt hlt)
      have h2 : ((book.bids.filter (fun pl => decide (S ≤ pl.1))).map
          (fun l => l.1)).Nodup :=
        h1.sublist ((List.filter_sublist _).map _)
      exact ((hperm.map (fun l => l.1)).nodup_iff).mpr h2
    have hagree : ∀ l ∈ sortLevelsDesc (book.bids.filter (fun pl => decide (S ≤ pl.1))),
        mapGet book.bids l.1 = some l.2 := by
      intro l hl
      exact @mapGet_of_mem_sorted book.bids l.1 l.2 hs (hsnap l hl).1
    have hfull := matchBidLevels_fullfill hvsnap hnd hs hagree hmbl hA0 hpos
    by_contra hcon
    push_neg at hcon
    have hqb : q ∈ keysOf book.bids := matchBidLevels_keys_sub hmbl q hq
    obtain ⟨osq, hosq⟩ := get_of_mem_keys hqb
    have hmemq : (q, osq) ∈ book.bids := mapGet_mem hosq
    have hmemf : (q, osq) ∈ book.bids.filter (fun pl => decide (S ≤ pl.1)) :=
      List.mem_filter.mpr ⟨hmemq, decide_eq_true hcon⟩
    have hmems : (q, osq) ∈ sortLevelsDesc (book.bids.filter (fun pl => decide (S ≤ pl.1))) :=
      hperm.mem_iff.mpr hmemf
    exact hfull (q, osq) hmems hq
  · intro t ht
    obtain ⟨_, l, hl, hpr, ho⟩ := hmaker t ht
    obtain ⟨hlb, hlS⟩ := hsnap l hl
    exact ⟨hpr ▸ hlS, l, hlb, hpr, ho⟩

/-! ## `process_order` branch lemmas -/

theorem levelsHold_mapPush {P : ℚ → Order → Prop} {m : List Level} {p : ℚ} {o : Order}
    (hg : LevelsHold P m) (ho : P p o) : LevelsHold P (mapPush m p o) := by
  constructor
  · intro pl hpl
    rcases mem_mapPush hpl with h1 | h1 | ⟨os, _, h1⟩
    · exact hg.1 pl h1
    · rw [h1]
      simp
    · rw [h1]
      simp
  · intro pl hpl o2 ho2
    rcases mem_mapPush hpl with h1 | h1 | ⟨os, hos, h1⟩
    · exact hg.2 pl h1 o2 ho2
    · rw [h1] at ho2 ⊢
      simp only [List.mem_singleton] at ho2
      rw [ho2]
      exact ho
    · rw [h1] at ho2 ⊢
      rcases List.mem_append.mp ho2 with h2 | h2
      · exact hg.2 (p, os) hos o2 h2
      · simp only [List.mem_singleton] at h2
        rw [h2]
        exact ho

theorem get_remaining_eq {order : Order} {ts : List Trade} {A : ℚ}
    (hA : order.amount.parse = some A)
    (htak : ∀ t ∈ ts, t.taker_order_id = order.order_id) :
    OrderBook.get_remaining_order order ts =
      some (if 0 < A - sumAmounts ts
        then some { order with amount := DecText.num (A - sumAmounts ts) } else none) := by
  rw [OrderBook.get_remaining_order, hA]
  have hfil : ts.filter (fun t => decide (t.taker_order_id = order.order_id)) = ts :=
    List.filter_eq_self.mpr (fun t ht => decide_eq_true (htak t ht))
  rw [hfil]
  by_cases h : 0 < A - sumAmounts ts <;> simp [h]

theorem process_create_buy {book : OrderBook} {order : Order} {A P : ℚ}
    (hA : order.amount.parse = some A) (hP : order.limit_price.parse = some P)
    (hv : ValidBook book) (hA0 : 0 ≤ A)
    (hop : order.type_op = "CREATE") (hside : order.side = "BUY") :
    ∃ bids2 asks2 ts,
      book.process_order order = some (⟨bids2, asks2, book.trades ++ ts⟩, ts, []) ∧
      SortedKeys asks2 ∧ GoodAskLevels asks2 ∧
      (∀ q ∈ keysOf asks2, q ∈ keysOf book.asks) ∧
      SortedKeys bids2 ∧ GoodBidLevels bids2 ∧
      (∀ t ∈ ts, t.taker_order_id = order.order_id) ∧
      ((bids2 = book.bids ∧ sumAmounts ts = A) ∨
        (∃ rem, 0 < rem ∧ sumAmounts ts + rem = A ∧
          bids2 = mapPush book.bids P { order with amount := DecText.num rem } ∧
          (∀ q ∈ keysOf asks2, P < q))) ∧
      (∀ q ∈ keysOf bids2, q ∈ keysOf book.bids ∨ q = P) ∧
      List.Chain' (fun x y => x ≤ y) (ts.map (fun t => t.price)) ∧
      (∀ t ∈ ts, t.price ≤ P ∧ ∃ l ∈ book.asks, t.price = l.1 ∧
        ∃ o ∈ l.2, o.order_id = t.maker_order_id) := by
  obtain ⟨asks3, ts, hmbeq, hs3, hg3, hk3, htak, hsum0, hcross, hasc, hmk⟩ :=
    match_buy_spec hA hP hv.2.1 hv.2.2 hA0
  have hrem := get_remaining_eq hA htak
  by_cases hpos : 0 < A - sumAmounts ts
  · have hproc : book.process_order order = some
        (⟨mapPush book.bids P { order with amount := DecText.num (A - sumAmounts ts) },
          asks3, book.trades ++ ts⟩, ts, []) := by
      simp [OrderBook.process_order, hop, hside, hmbeq, hrem, hpos, OrderBook.add_order, hP]
    refine ⟨_, asks3, ts, hproc, hs3, hg3, hk3,
      sortedKeys_mapPush hv.1.1, ?_, htak, ?_, ?_, hasc, hmk⟩
    · refine levelsHold_mapPush hv.1.2 ?_
      exact ⟨hP, ⟨A - sumAmounts ts, rfl, hpos⟩, hside⟩
    · exact Or.inr ⟨A - sumAmounts ts, hpos, by ring, rfl, hcross hpos⟩
    · exact fun q hq => keys_mapPush_sub hq
  · have hproc : book.process_order order =
        some (⟨book.bids, asks3, book.trades ++ ts⟩, ts, []) := by
      simp [OrderBook.process_order, hop, hside, hmbeq, hrem, hpos]
    refine ⟨book.bids, asks3, ts, hproc, hs3, hg3, hk3, hv.1.1, hv.1.2, htak,
      Or.inl ⟨rfl, by linarith⟩, fun q hq => Or.inl hq, hasc, hmk⟩

theorem process_create_sell {book : OrderBook} {order : Order} {A S : ℚ}
    (hA : order.amount.parse = some A) (hS : order.limit_price.parse = some S)
    (hv : ValidBook book) (hA0 : 0 ≤ A)
    (hop : order.type_op = "CREATE") (hside : order.side = "SELL") :
    ∃ bids2 asks2 ts,
      book.process_order order = some (⟨bids2, asks2, book.trades ++ ts⟩, ts, []) ∧
      SortedKeys bids2 ∧ GoodBidLevels bids2 ∧
      (∀ q ∈ keysOf bids2, q ∈ keysOf book.bids) ∧
      SortedKeys asks2 ∧ GoodAskLevels asks2 ∧
      (∀ t ∈ ts, t.taker_order_id = order.order_id) ∧
      ((asks2 = book.asks ∧ sumAmounts ts = A) ∨
        (∃ rem, 0 < rem ∧ sumAmounts ts + rem = A ∧
          asks2 = mapPush book.asks S { order with amount := DecText.num rem } ∧
          (∀ q ∈ keysOf bids2, q < S))) ∧
      (∀ q ∈ keysOf asks2, q ∈ keysOf book.asks ∨ q = S) ∧
      List.Chain' (fun x y => y ≤ x) (ts.map (fun t => t.price)) ∧
      (∀ t ∈ ts, S ≤ t.price ∧ ∃ l ∈ book.bids, t.price = l.1 ∧
        ∃ o ∈ l.2, o.order_id = t.maker_order_id) := by
  obtain ⟨bids3, ts, hmseq, hs3, hg3, hk3, htak, hsum0, hcross, hdesc, hmk⟩ :=
    match_sell_spec hA hS hv.1.1 hv.1.2 hA0
  have hrem := get_remaining_eq hA htak
  by_cases hpos : 0 < A - sumAmounts ts
  · have hproc : book.process_order order = some
        (⟨bids3, mapPush book.asks S { order with amount := DecText.num (A - sumAmounts ts) },
          book.trades ++ ts⟩, ts, []) := by
      simp [OrderBook.process_order, hop, hside, hmseq, hrem, hpos, OrderBook.add_order, hS]
    refine ⟨bids3, _, ts, hproc, hs3, hg3, hk3,
      sortedKeys_mapPush hv.2.1, ?_, htak, ?_, ?_, hdesc, hmk⟩
    · refine levelsHold_mapPush hv.2.2 ?_
      exact ⟨hS, ⟨A - sumAmounts ts, rfl, hpos⟩, hside⟩
    · exact Or.inr ⟨A - sumAmounts ts, hpos, by ring, rfl, hcross hpos⟩
    · exact fun q hq => keys_mapPush_sub hq
  · have hproc : book.process_order order =
        some (⟨bids3, book.asks, book.trades ++ ts⟩, ts, []) := by
      simp [OrderBook.process_order, hop, hside, hmseq, hrem, hpos]
    refine ⟨bids3, book.asks, ts, hproc, hs3, hg3, hk3, hv.2.1, hv.2.2, htak,
      Or.inl ⟨rfl, by linarith⟩, fun q hq => Or.inl hq, hdesc, hmk⟩

/-! ## `deleteSide` and `DELETE` branch lemmas -/

theorem deleteSide_keys_sub {m : List Level} {p : ℚ} {oid : String} :
    ∀ q ∈ keysOf (deleteSide m p oid), q ∈ keysOf m := by
  intro q hq
  rw [deleteSide] at hq
  cases hgb : mapGet m p with
  | none =>
    rw [hgb] at hq
    exact hq
  | some os =>
    rw [hgb] at hq
    by_cases he : (os.filter (fun o => decide (o.order_id ≠ oid))).isEmpty
    · simp only [if_pos he] at hq
      exact (keysOf_sublist_of_sublist (mapRemove_sublist m p)).subset hq
    · simp only [if_neg he] at hq
      rw [keysOf_mapSet] at hq
      exact hq

theorem deleteSide_sorted {m : List Level} {p : ℚ} {oid : String}
    (hs : SortedKeys m) : SortedKeys (deleteSide m p oid) := by
  rw [deleteSide]
  cases hgb : mapGet m p with
  | none => exact hs
  | some os =>
    by_cases he : (os.filter (fun o => decide (o.order_id ≠ oid))).isEmpty
    · simp only [if_pos he]
      exact sortedKeys_of_sublist (mapRemove_sublist m p) hs
    · simp only [if_neg he]
      rw [SortedKeys, keysOf_mapSet]
      exact hs

theorem deleteSide_good {P : ℚ → Order → Prop} {m : List Level} {p : ℚ} {oid : String}
    (hg : LevelsHold P m) : LevelsHold P (deleteSide m p oid) := by
  rw [deleteSide]
  cases hgb : mapGet m p with
  | none => exact hg
  | some os =>
    by_cases he : (os.filter (fun o => decide (o.order_id ≠ oid))).isEmpty
    · simp only [if_pos he]
      exact levelsHold_of_sublist (mapRemove_sublist m p) hg
    · simp only [if_neg he]
      refine levelsHold_mapSet hg ?_ ?_
      · intro hc
        rw [hc] at he
        simp at he
      · intro o ho
        exact hg.2 (p, os) (mapGet_mem hgb) o (List.mem_of_mem_filter ho)

theorem deleteSide_absent {m : List Level} {p : ℚ} {oid : String}
    (hgb : mapGet m p = none) : deleteSide m p oid = m := by
  rw [deleteSide, hgb]

theorem deleteSide_local {m : List Level} {p : ℚ} {oid : String} {q : ℚ} (hq : q ≠ p) :
    mapGet (deleteSide m p oid) q = mapGet m q := by
  rw [deleteSide]
  cases hgb : mapGet m p with
  | none => rfl
  | some os =>
    by_cases he : (os.filter (fun o => decide (o.order_id ≠ oid))).isEmpty
    · simp only [if_pos he]
      exact mapGet_remove_ne hq
    · simp only [if_neg he]
      exact mapGet_set_ne hq

theorem deleteSide_at {m : List Level} {p : ℚ} {oid : String} {os : List Order}
    (hs : SortedKeys m) (hgb : mapGet m p = some os) :
    mapGet (deleteSide m p oid) p =
      (if (os.filter (fun o => decide (o.order_id ≠ oid))).isEmpty then none
        else some (os.filter (fun o => decide (o.order_id ≠ oid)))) := by
  rw [deleteSide, hgb]
  by_cases he : (os.filter (fun o => decide (o.order_id ≠ oid))).isEmpty
  · simp only [if_pos he]
    rw [mapGet_eq_none_iff]
    exact not_mem_keys_mapRemove_self hs
  · simp only [if_neg he]
    rw [mapGet_set_self, hgb]
    rfl

theorem deleteSide_noop {m : List Level} {p : ℚ} {oid : String} {os : List Order}
    (hgb : mapGet m p = some os) (hne : os ≠ [])
    (hid : oid ∉ os.map (fun o => o.order_id)) : deleteSide m p oid = m := by
  have hfil : os.filter (fun o => decide (o.order_id ≠ oid)) = os := by
    refine List.filter_eq_self.mpr ?_
    intro o ho
    refine decide_eq_true ?_
    intro hc
    exact hid (hc ▸ List.mem_map_of_mem _ ho)
  have he : ¬ (os.filter (fun o => decide (o.order_id ≠ oid))).isEmpty = true := by
    rw [hfil]
    cases os with
    | nil => exact absurd rfl hne
    | cons o os' => simp
  simp only [deleteSide, hgb, if_neg he]
  rw [hfil]
  exact mapSet_self hgb

theorem process_delete {book : OrderBook} {order : Order} {P : ℚ}
    (hP : order.limit_price.parse = some P) (hop : order.type_op = "DELETE") :
    (order.side = "BUY" →
      book.process_order order =
        some ({ book with bids := deleteSide book.bids P order.order_id }, [], [])) ∧
    (order.side ≠ "BUY" →
      book.process_order order =
        some ({ book with asks := deleteSide book.asks P order.order_id }, [], [])) := by
  constructor
  · intro hside
    simp [OrderBook.process_order, hop, hside, OrderBook.remove_order, hP]
  · intro hside
    simp [OrderBook.process_order, hop, hside, OrderBook.remove_order, hP]

/-- `CREATE` with a side that is neither `BUY` nor `SELL`: nothing happens and
nothing is reported. -/
theorem process_create_other {book : OrderBook} {order : Order}
    (hop : order.type_op = "CREATE") (hb : order.side ≠ "BUY")
    (hs : order.side ≠ "SELL") :
    book.process_order order = some (book, [], []) := by
  simp [OrderBook.process_order, hop, hb, hs]

/-- An unknown operation kind: nothing happens but a diagnostic is emitted. -/
theorem process_unknown {book : OrderBook} {order : Order}
    (hc : order.type_op ≠ "CREATE") (hd : order.type_op ≠ "DELETE") :
    book.process_order order =
      some (book, [], ["Unknown order type: " ++ order.type_op]) := by
  simp [OrderBook.process_order, hc, hd]

/-! ## Single-step and whole-run invariant preservation -/

theorem process_step {book : OrderBook} {order : Order}
    (hv : ValidBook book) (hu : Uncrossed book) (hw : WellFormed order) :
    ∃ book2 ts logs, book.process_order order = some (book2, ts, logs) ∧
      ValidBook book2 ∧ Uncrossed book2 := by
  obtain ⟨⟨A, hA, hA0⟩, ⟨P, hP⟩, hop, hside⟩ := hw
  rcases hop with hop | hop
  · rcases hside with hside | hside
    · obtain ⟨bids2, asks2, ts, hproc, hsa, hga, hka, hsb, hgb, _, hdisj, hkb, _, _⟩ :=
        process_create_buy hA hP hv hA0 hop hside
      refine ⟨_, ts, [], hproc, ⟨⟨hsb, hgb⟩, hsa, hga⟩, ?_⟩
      intro bp hbp ap hap
      rcases hdisj with ⟨hbid, _⟩ | ⟨rem, _, _, hbid, hPlt⟩
      · rw [hbid] at hbp
        exact hu bp hbp ap (hka ap hap)
      · rw [hbid] at hbp
        rcases keys_mapPush_sub hbp with h1 | h1
        · exact hu bp h1 ap (hka ap hap)
        · rw [h1]
          exact hPlt ap hap
    · obtain ⟨bids2, asks2, ts, hproc, hsb, hgb, hkb, hsa, hga, _, hdisj, hka, _, _⟩ :=
        process_create_sell hA hP hv hA0 hop hside
      refine ⟨_, ts, [], hproc, ⟨⟨hsb, hgb⟩, hsa, hga⟩, ?_⟩
      intro bp hbp ap hap
      rcases hdisj with ⟨hask, _⟩ | ⟨rem, _, _, hask, hSgt⟩
      · rw [hask] at hap
        exact hu bp (hkb bp hbp) ap hap
      · rw [hask] at hap
        rcases keys_mapPush_sub hap with h1 | h1
        · exact hu bp (hkb bp hbp) ap h1
        · rw [h1]
          exact hSgt bp hbp
  · by_cases hside2 : order.side = "BUY"
    · refine ⟨_, [], [], (process_delete hP hop).1 hside2,
        ⟨⟨deleteSide_sorted hv.1.1, deleteSide_good hv.1.2⟩, hv.2.1, hv.2.2⟩, ?_⟩
      intro bp hbp ap hap
      exact hu bp (deleteSide_keys_sub bp hbp) ap hap
    · refine ⟨_, [], [], (process_delete hP hop).2 hside2,
        ⟨⟨hv.1.1, hv.1.2⟩, deleteSide_sorted hv.2.1, deleteSide_good hv.2.2⟩, ?_⟩
      intro bp hbp ap hap
      exact hu bp hbp ap (deleteSide_keys_sub ap hap)

theorem runOrders_inv {orders : List Order} :
    ∀ {book}, ValidBook book → Uncrossed book → (∀ o ∈ orders, WellFormed o) →
    ∃ book2, runOrders book orders = some book2 ∧ ValidBook book2 ∧ Uncrossed book2 := by
  induction orders with
  | nil =>
    intro book hv hu _
    exact ⟨book, rfl, hv, hu⟩
  | cons o os ih =>
    intro book hv hu hw
    obtain ⟨b2, ts, logs, hp, hv2, hu2⟩ := process_step hv hu (hw o (by simp))
    obtain ⟨b3, hrun, hv3, hu3⟩ := ih hv2 hu2 (fun o2 ho2 => hw o2 (by simp [ho2]))
    exact ⟨b3, by simp [runOrders, hp, hrun], hv3, hu3⟩

theorem validBook_new : ValidBook OrderBook.new := by
  constructor <;> exact ⟨by simp [SortedKeys, keysOf, OrderBook.new],
    by intro pl hpl; simp [OrderBook.new] at hpl, by intro pl hpl; simp [OrderBook.new] at hpl⟩

theorem uncrossed_new : Uncrossed OrderBook.new := by
  intro bp hbp
  simp [OrderBook.new, keysOf] at hbp

theorem matchBidLevels_zero {takerId pairName : String} {r : ℚ} {snap bids : List Level}
    (hr : r ≤ 0) : matchBidLevels takerId pairName r snap bids = some ([], bids, r) := by
  cases snap with
  | nil => rfl
  | cons hd rest =>
    obtain ⟨p, sos⟩ := hd
    simp [matchBidLevels, hr]

/-- A `CREATE` whose parsed amount is zero or negative generates no trade and
leaves the book exactly as it was (nothing is inserted). -/
theorem process_create_nonpos {book : OrderBook} {order : Order} {A P : ℚ}
    (hA : order.amount.parse = some A) (hP : order.limit_price.parse = some P)
    (hv : ValidBook book) (hA0 : A ≤ 0) (hop : order.type_op = "CREATE") :
    book.process_order order = some (book, [], []) := by
  have hrem : OrderBook.get_remaining_order order [] = some none := by
    have : ¬ (0 < A - sumAmounts []) := by
      simp [sumAmounts]
      linarith
    simp [OrderBook.get_remaining_order, hA, sumAmounts]
    linarith
  by_cases hb : order.side = "BUY"
  · have hz := @matchAskLevels_zero order.order_id order.pair P book.asks A hv.2.2 hA0
    have hmb : book.match_buy_order order = some (book, []) := by
      simp [OrderBook.match_buy_order, hA, hP, hz, removeFilledOrders, removePriceLevels]
    simp [OrderBook.process_order, hop, hb, hmb, hrem]
  · by_cases hs : order.side = "SELL"
    · have hz := @matchBidLevels_zero order.order_id order.pair A
        (sortLevelsDesc (book.bids.filter (fun pl => decide (P ≤ pl.1)))) book.bids hA0
      have hms : book.match_sell_order order = some (book, []) := by
        simp [OrderBook.match_sell_order, hA, hP, hz]
      simp [OrderBook.process_order, hop, hb, hs, hms, hrem]
    · exact process_create_other hop hb hs

/-! ## Claim theorems -/

/-- C1: the claim says an instruction whose price or amount text does not
parse as an exact decimal is rejected before mutating any state, without
panicking, with the failure reported per-instruction.  The code instead calls
`Decimal::from_str(..).unwrap()`, which panics; in the embedding the panic is
`none`.  Evaluating `process_order` on a `CREATE BUY` whose amount text is
unparseable yields `none` (a panic), not a reported per-instruction failure:
the claim describes intended behaviour the code does not implement. -/
theorem c1_malformed_numeric_panics :
    OrderBook.new.process_order
      { type_op := "CREATE", account_id := "1", amount := DecText.bad "abc",
        order_id := "1", pair := "BTC/USDC", limit_price := DecText.num 1,
        side := "BUY", timestamp := 0 } = none := rfl

/-- C2: for every `CREATE` processed with a well-formed positive amount (on a
well-formed book), the sum of the amounts of the trades emitted by the call —
all of which carry this order as taker — plus the amount of the remainder
order inserted into the book (the second disjunct; zero if none was inserted,
the first disjunct, in which case the trades sum to the full amount) exactly
equals the order's original submitted amount `A`, in exact arithmetic. -/
theorem c2_conservation {book : OrderBook} {order : Order} {A P : ℚ}
    (hv : ValidBook book) (hop : order.type_op = "CREATE")
    (hA : order.amount.parse = some A) (hApos : 0 < A)
    (hP : order.limit_price.parse = some P) :
    (order.side = "BUY" →
      ∃ bids2 asks2 ts,
        book.process_order order = some (⟨bids2, asks2, book.trades ++ ts⟩, ts, []) ∧
        (∀ t ∈ ts, t.taker_order_id = order.order_id) ∧
        ((bids2 = book.bids ∧ sumAmounts ts = A) ∨
          ∃ rem, 0 < rem ∧ sumAmounts ts + rem = A ∧
            bids2 = mapPush book.bids P { order with amount := DecText.num rem })) ∧
    (order.side = "SELL" →
      ∃ bids2 asks2 ts,
        book.process_order order = some (⟨bids2, asks2, book.trades ++ ts⟩, ts, []) ∧
        (∀ t ∈ ts, t.taker_order_id = order.order_id) ∧
        ((asks2 = book.asks ∧ sumAmounts ts = A) ∨
          ∃ rem, 0 < rem ∧ sumAmounts ts + rem = A ∧
            asks2 = mapPush book.asks P { order with amount := DecText.num rem })) := by
  constructor
  · intro hside
    obtain ⟨bids2, asks2, ts, hproc, _, _, _, _, _, htak, hdisj, _, _, _⟩ :=
      process_create_buy hA hP hv (le_of_lt hApos) hop hside
    refine ⟨bids2, asks2, ts, hproc, htak, ?_⟩
    rcases hdisj with ⟨h1, h2⟩ | ⟨rem, h1, h2, h3, _⟩
    · exact Or.inl ⟨h1, h2⟩
    · exact Or.inr ⟨rem, h1, h2, h3⟩
  · intro hside
    obtain ⟨bids2, asks2, ts, hproc, _, _, _, _, _, htak, hdisj, _, _, _⟩ :=
      process_create_sell hA hP hv (le_of_lt hApos) hop hside
    refine ⟨bids2, asks2, ts, hproc, htak, ?_⟩
    rcases hdisj with ⟨h1, h2⟩ | ⟨rem, h1, h2, h3, _⟩
    · exact Or.inl ⟨h1, h2⟩
    · exact Or.inr ⟨rem, h1, h2, h3⟩

/-- C3: after any sequence of `CREATE`/`DELETE` instructions with well-formed
fields, starting from the empty book, processing succeeds and every resting
bid price is strictly below every resting ask price (`Uncrossed`): the book is
never left crossed. -/
theorem c3_never_crossed {orders : List Order}
    (hw : ∀ o ∈ orders, WellFormed o) :
    ∃ book2, runOrders OrderBook.new orders = some book2 ∧ Uncrossed book2 := by
  obtain ⟨b2, h1, _, h3⟩ := runOrders_inv validBook_new uncrossed_new hw
  exact ⟨b2, h1, h3⟩

/-- C7: after any sequence of `process` calls on well-formed input starting
from the empty book, every resting order has strictly positive remaining
amount and rests under the price key equal to its parsed `limit_price` in the
map matching its side, and no price level in either map is an empty
sequence. -/
theorem c7_book_wellformed {orders : List Order}
    (hw : ∀ o ∈ orders, WellFormed o) :
    ∃ book2, runOrders OrderBook.new orders = some book2 ∧
      (∀ pl ∈ book2.bids, pl.2 ≠ [] ∧ ∀ o ∈ pl.2,
        o.limit_price.parse = some pl.1 ∧ (∃ a, o.amount.parse = some a ∧ 0 < a) ∧
        o.side = "BUY") ∧
      (∀ pl ∈ book2.asks, pl.2 ≠ [] ∧ ∀ o ∈ pl.2,
        o.limit_price.parse = some pl.1 ∧ (∃ a, o.amount.parse = some a ∧ 0 < a) ∧
        o.side = "SELL") := by
  obtain ⟨b2, h1, hv, _⟩ := runOrders_inv validBook_new uncrossed_new hw
  exact ⟨b2, h1,
    fun pl hpl => ⟨hv.1.2.1 pl hpl, fun o ho => hv.1.2.2 pl hpl o ho⟩,
    fun pl hpl => ⟨hv.2.2.1 pl hpl, fun o ho => hv.2.2.2 pl hpl o ho⟩⟩

/-- C8: a `CREATE` whose parsed amount is zero or negative produces no trade
and returns the book unchanged, so no zero- or negative-amount resting order
is ever inserted. -/
theorem c8_nonpositive_create_rejected {book : OrderBook} {order : Order} {A P : ℚ}
    (hv : ValidBook book) (hop : order.type_op = "CREATE")
    (hA : order.amount.parse = some A) (hA0 : A ≤ 0)
    (hP : order.limit_price.parse = some P) :
    book.process_order order = some (book, [], []) :=
  process_create_nonpos hA hP hv hA0 hop

/-- C9: a `DELETE` removes the resting order identified by
`(side, limit_price, order_id)`, removes the price level if it becomes empty,
and returns no trades; a `DELETE` naming a level or order not present leaves
the book unchanged and succeeds (a no-op, not a failure). -/
theorem c9_delete {book : OrderBook} {order : Order} {P : ℚ}
    (hv : ValidBook book) (hop : order.type_op = "DELETE")
    (hP : order.limit_price.parse = some P) :
    (order.side = "BUY" →
      ∃ book1, book.process_order order = some (book1, [], []) ∧
        book1.asks = book.asks ∧ book1.trades = book.trades ∧
        (∀ q, q ≠ P → mapGet book1.bids q = mapGet book.bids q) ∧
        (mapGet book.bids P = none → book1 = book) ∧
        (∀ os, mapGet book.bids P = some os →
          mapGet book1.bids P =
            (if (os.filter (fun o => decide (o.order_id ≠ order.order_id))).isEmpty
              then none
              else some (os.filter (fun o => decide (o.order_id ≠ order.order_id)))) ∧
          (order.order_id ∉ os.map (fun o => o.order_id) → book1 = book))) ∧
    (order.side = "SELL" →
      ∃ book1, book.process_order order = some (book1, [], []) ∧
        book1.bids = book.bids ∧ book1.trades = book.trades ∧
        (∀ q, q ≠ P → mapGet book1.asks q = mapGet book.asks q) ∧
        (mapGet book.asks P = none → book1 = book) ∧
        (∀ os, mapGet book.asks P = some os →
          mapGet book1.asks P =
            (if (os.filter (fun o => decide (o.order_id ≠ order.order_id))).isEmpty
              then none
              else some (os.filter (fun o => decide (o.order_id ≠ order.order_id)))) ∧
          (order.order_id ∉ os.map (fun o => o.order_id) → book1 = book))) := by
  constructor
  · intro hside
    refine ⟨_, (process_delete hP hop).1 hside, rfl, rfl, ?_, ?_, ?_⟩
    · intro q hq
      exact deleteSide_local hq
    · intro hnone
      have h1 : deleteSide book.bids P order.order_id = book.bids := deleteSide_absent hnone
      rw [h1]
    · intro os hos
      refine ⟨deleteSide_at hv.1.1 hos, ?_⟩
      intro hid
      have h1 : deleteSide book.bids P order.order_id = book.bids :=
        deleteSide_noop hos (hv.1.2.1 (P, os) (mapGet_mem hos)) hid
      rw [h1]
  · intro hside
    have hnb : order.side ≠ "BUY" := by
      rw [hside]
      decide
    refine ⟨_, (process_delete hP hop).2 hnb, rfl, rfl, ?_, ?_, ?_⟩
    · intro q hq
      exact deleteSide_local hq
    · intro hnone
      have h1 : deleteSide book.asks P order.order_id = book.asks := deleteSide_absent hnone
      rw [h1]
    · intro os hos
      refine ⟨deleteSide_at hv.2.1 hos, ?_⟩
      intro hid
      have h1 : deleteSide book.asks P order.order_id = book.asks :=
        deleteSide_noop hos (hv.2.2.1 (P, os) (mapGet_mem hos)) hid
      rw [h1]

/-- C10: a `CREATE` whose side is neither `BUY` nor `SELL` returns an empty
trade list and leaves the bids, asks and trade ledger unchanged, emitting no
diagnostic — unlike an unknown operation kind, which leaves the book
unchanged but emits a diagnostic message. -/
theorem c10_unknown_side_silent_noop {book : OrderBook} {order : Order}
    (hop : order.type_op = "CREATE") (hb : order.side ≠ "BUY")
    (hs : order.side ≠ "SELL") :
    book.process_order order = some (book, [], []) ∧
    (∀ order2 : Order, order2.type_op ≠ "CREATE" → order2.type_op ≠ "DELETE" →
      book.process_order order2 =
        some (book, [], ["Unknown order type: " ++ order2.type_op])) :=
  ⟨process_create_other hop hb hs, fun _ h1 h2 => process_unknown h1 h2⟩

/-- C4: an incoming buy with limit `P` matches only resting sell levels of
price at most `P` (each trade's price is the key of a resting ask level
holding its maker), traversed in ascending price order (the emitted trade
prices are non-decreasing); symmetrically an incoming sell with limit `P`
matches only resting bid levels of price at least `P`, traversed in
descending price order. -/
theorem c4_price_priority {book : OrderBook} {order : Order} {A P : ℚ}
    (hv : ValidBook book) (hA : order.amount.parse = some A)
    (hP : order.limit_price.parse = some P) (hA0 : 0 ≤ A) :
    (∀ b1 ts, book.match_buy_order order = some (b1, ts) →
      (∀ t ∈ ts, t.price ≤ P ∧ ∃ l ∈ book.asks, t.price = l.1 ∧
        ∃ o ∈ l.2, o.order_id = t.maker_order_id) ∧
      List.Chain' (fun x y => x ≤ y) (ts.map (fun t => t.price))) ∧
    (∀ b1 ts, book.match_sell_order order = some (b1, ts) →
      (∀ t ∈ ts, P ≤ t.price ∧ ∃ l ∈ book.bids, t.price = l.1 ∧
        ∃ o ∈ l.2, o.order_id = t.maker_order_id) ∧
      List.Chain' (fun x y => y ≤ x) (ts.map (fun t => t.price))) := by
  constructor
  · intro b1 ts h
    obtain ⟨asks3, ts2, heq, _, _, _, _, _, _, hasc, hmk⟩ :=
      match_buy_spec hA hP hv.2.1 hv.2.2 hA0
    rw [heq] at h
    simp only [Option.some.injEq, Prod.mk.injEq] at h
    obtain ⟨_, rfl⟩ := h
    exact ⟨hmk, hasc⟩
  · intro b1 ts h
    obtain ⟨bids3, ts2, heq, _, _, _, _, _, _, hdesc, hmk⟩ :=
      match_sell_spec hA hP hv.1.1 hv.1.2 hA0
    rw [heq] at h
    simp only [Option.some.injEq, Prod.mk.injEq] at h
    obtain ⟨_, rfl⟩ := h
    exact ⟨hmk, hdesc⟩

/-- C5: within a single price level, resting orders are matched against an
incoming order in insertion order — the makers of the emitted trades are
exactly the ids of a prefix of the level's sequence, with no other tie-break
— for both the buy-side and sell-side inner loops; and `add_order` appends an
order (in particular an unfilled remainder) at the end of its price level's
sequence, behind every order already resting there. -/
theorem c5_time_priority :
    (∀ (takerId pairName : String) (price r : ℚ) (os : List Order) ts os2 ids r2,
      matchAskOrders takerId pairName price r os = some (ts, os2, ids, r2) →
      ts.map (fun t => t.maker_order_id) =
        (os.take ts.length).map (fun o => o.order_id)) ∧
    (∀ (takerId pairName : String) (price r : ℚ) (bos : List Order)
        bids marks ts bids2 marks2 r2,
      matchBidOrders takerId pairName price r bos bids marks =
          some (ts, bids2, marks2, r2) →
      ts.map (fun t => t.maker_order_id) =
        (bos.take ts.length).map (fun o => o.order_id)) ∧
    (∀ (book : OrderBook) (order : Order) (p : ℚ) (book2 : OrderBook),
      order.limit_price.parse = some p → book.add_order order = some book2 →
      (order.side = "BUY" → SortedKeys book.bids →
        mapGet book2.bids p = some ((mapGet book.bids p).getD [] ++ [order])) ∧
      (order.side ≠ "BUY" → SortedKeys book.asks →
        mapGet book2.asks p = some ((mapGet book.asks p).getD [] ++ [order]))) := by
  refine ⟨fun _ _ _ _ _ _ _ _ _ h => matchAskOrders_makers h,
    fun _ _ _ _ _ _ _ _ _ _ _ h => matchBidOrders_makers h, ?_⟩
  intro book order p book2 hp hadd
  constructor
  · intro hside hs
    simp only [OrderBook.add_order, hp, if_pos hside] at hadd
    injection hadd with hadd
    rw [← hadd]
    exact mapGet_push_self hs
  · intro hside hs
    simp only [OrderBook.add_order, hp, if_neg hside] at hadd
    injection hadd with hadd
    rw [← hadd]
    exact mapGet_push_self hs

/-- C6: every trade built by the inner matching loops (the only places trades
are constructed) is `mkTrade takerId maker pairName price amt` where `price`
is the resting level's price (the loops never see the taker's limit price)
and `amt = min(incoming remaining amount, resting order's amount)`: the `i`-th
trade of a level uses the `i`-th resting order's id and parsed amount `a_i`,
and the incoming remaining `r - (sum of the earlier trade amounts)`. -/
theorem c6_trade_price_and_amount :
    (∀ (takerId pairName : String) (price r : ℚ) (os : List Order) ts os2 ids r2,
      matchAskOrders takerId pairName price r os = some (ts, os2, ids, r2) →
      ∀ i, i < ts.length → ∃ o a, os.get? i = some o ∧ o.amount.parse = some a ∧
        ts.get? i = some (mkTrade takerId o.order_id pairName price
          (min (r - sumAmounts (ts.take i)) a))) ∧
    (∀ (takerId pairName : String) (price r : ℚ) (bos : List Order)
        bids marks ts bids2 marks2 r2,
      matchBidOrders takerId pairName price r bos bids marks =
          some (ts, bids2, marks2, r2) →
      ∀ i, i < ts.length → ∃ bo b, bos.get? i = some bo ∧ bo.amount.parse = some b ∧
        ts.get? i = some (mkTrade takerId bo.order_id pairName price
          (min (r - sumAmounts (ts.take i)) b))) :=
  ⟨fun _ _ _ _ _ _ _ _ _ h => matchAskOrders_amount h,
    fun _ _ _ _ _ _ _ _ _ _ _ h => matchBidOrders_amount h⟩

/-! ## Concrete example data -/

/-- A resting sell order: 1.0 at 50000.0 (the test suite's first order). -/
def restingSell : Order :=
  { type_op := "CREATE", account_id := "1", amount := DecText.num 1, order_id := "1",
    pair := "BTC/USDC", limit_price := DecText.num 50000, side := "SELL", timestamp := 0 }

/-- An incoming buy order: 2.0 at 50000.0. -/
def incomingBuy : Order :=
  { type_op := "CREATE", account_id := "2", amount := DecText.num 2, order_id := "2",
    pair := "BTC/USDC", limit_price := DecText.num 50000, side := "BUY", timestamp := 1 }

/-- A `DELETE` naming the resting sell. -/
def deleteSell : Order :=
  { type_op := "DELETE", account_id := "1", amount := DecText.num 1, order_id := "1",
    pair := "BTC/USDC", limit_price := DecText.num 50000, side := "SELL", timestamp := 2 }

/-- A zero-amount buy. -/
def zeroBuy : Order :=
  { type_op := "CREATE", account_id := "3", amount := DecText.num 0, order_id := "3",
    pair := "BTC/USDC", limit_price := DecText.num 50000, side := "BUY", timestamp := 3 }

/-- A `CREATE` with an unrecognised side. -/
def weirdSide : Order :=
  { type_op := "CREATE", account_id := "4", amount := DecText.num 1, order_id := "4",
    pair := "BTC/USDC", limit_price := DecText.num 50000, side := "XYZ", timestamp := 4 }

/-- An instruction with an unknown operation kind. -/
def badOp : Order :=
  { type_op := "NOOP", account_id := "5", amount := DecText.num 1, order_id := "5",
    pair := "BTC/USDC", limit_price := DecText.num 50000, side := "BUY", timestamp := 5 }

/-- A resting buy order: 1.0 at 50000.0. -/
def restingBuy : Order :=
  { type_op := "CREATE", account_id := "1", amount := DecText.num 1, order_id := "B1",
    pair := "BTC/USDC", limit_price := DecText.num 50000, side := "BUY", timestamp := 0 }

/-- A book holding one resting ask level. -/
def bookOneAsk : OrderBook := ⟨[], [(50000, [restingSell])], []⟩

theorem validBook_bookOneAsk : ValidBook bookOneAsk := by
  refine ⟨⟨?_, ?_, ?_⟩, ?_, ?_, ?_⟩ <;>
    simp [SortedKeys, keysOf, bookOneAsk, LevelsHold, OrdersHold, AskOrderAt,
      BidOrderAt, restingSell, DecText.parse]

/-! ## Witnesses -/

theorem c2_conservation_witness :
    ValidBook bookOneAsk ∧ incomingBuy.type_op = "CREATE" ∧
    incomingBuy.amount.parse = some 2 ∧ (0:ℚ) < 2 ∧
    incomingBuy.limit_price.parse = some 50000 ∧ incomingBuy.side = "BUY" ∧
    (∃ bids2 asks2 ts,
      bookOneAsk.process_order incomingBuy =
        some (⟨bids2, asks2, bookOneAsk.trades ++ ts⟩, ts, []) ∧
      (∀ t ∈ ts, t.taker_order_id = incomingBuy.order_id) ∧
      ((bids2 = bookOneAsk.bids ∧ sumAmounts ts = 2) ∨
        ∃ rem, 0 < rem ∧ sumAmounts ts + rem = 2 ∧
          bids2 = mapPush bookOneAsk.bids 50000
            { incomingBuy with amount := DecText.num rem })) :=
  ⟨validBook_bookOneAsk, rfl, rfl, by norm_num, rfl, rfl,
    (@c2_conservation bookOneAsk incomingBuy 2 50000
      validBook_bookOneAsk rfl rfl (by norm_num) rfl).1 rfl⟩

theorem c3_never_crossed_witness :
    (∀ o ∈ [restingSell, incomingBuy], WellFormed o) ∧
    ∃ book2, runOrders OrderBook.new [restingSell, incomingBuy] = some book2 ∧
      Uncrossed book2 := by
  have hw : ∀ o ∈ [restingSell, incomingBuy], WellFormed o := by
    intro o ho
    rcases List.mem_cons.mp ho with h | h
    · rw [h]
      exact ⟨⟨1, rfl, by norm_num⟩, ⟨50000, rfl⟩, Or.inl rfl, Or.inr rfl⟩
    · simp only [List.mem_singleton] at h
      rw [h]
      exact ⟨⟨2, rfl, by norm_num⟩, ⟨50000, rfl⟩, Or.inl rfl, Or.inl rfl⟩
  exact ⟨hw, c3_never_crossed hw⟩

theorem c7_book_wellformed_witness :
    (∀ o ∈ [restingSell, incomingBuy], WellFormed o) ∧
    ∃ book2, runOrders OrderBook.new [restingSell, incomingBuy] = some book2 ∧
      (∀ pl ∈ book2.bids, pl.2 ≠ [] ∧ ∀ o ∈ pl.2,
        o.limit_price.parse = some pl.1 ∧ (∃ a, o.amount.parse = some a ∧ 0 < a) ∧
        o.side = "BUY") ∧
      (∀ pl ∈ book2.asks, pl.2 ≠ [] ∧ ∀ o ∈ pl.2,
        o.limit_price.parse = some pl.1 ∧ (∃ a, o.amount.parse = some a ∧ 0 < a) ∧
        o.side = "SELL") := by
  have hw : ∀ o ∈ [restingSell, incomingBuy], WellFormed o := by
    intro o ho
    rcases List.mem_cons.mp ho with h | h
    · rw [h]
      exact ⟨⟨1, rfl, by norm_num⟩, ⟨50000, rfl⟩, Or.inl rfl, Or.inr rfl⟩
    · simp only [List.mem_singleton] at h
      rw [h]
      exact ⟨⟨2, rfl, by norm_num⟩, ⟨50000, rfl⟩, Or.inl rfl, Or.inl rfl⟩
  exact ⟨hw, c7_book_wellformed hw⟩

theorem c8_nonpositive_create_rejected_witness :
    ValidBook bookOneAsk ∧ zeroBuy.type_op = "CREATE" ∧
    zeroBuy.amount.parse = some 0 ∧ (0:ℚ) ≤ 0 ∧
    zeroBuy.limit_price.parse = some 50000 ∧
    bookOneAsk.process_order zeroBuy = some (bookOneAsk, [], []) :=
  ⟨validBook_bookOneAsk, rfl, rfl, le_rfl, rfl,
    c8_nonpositive_create_rejected validBook_bookOneAsk rfl rfl le_rfl rfl⟩

theorem c9_delete_witness :
    ValidBook bookOneAsk ∧ deleteSell.type_op = "DELETE" ∧
    deleteSell.limit_price.parse = some 50000 ∧ deleteSell.side = "SELL" ∧
    (∃ book1, bookOneAsk.process_order deleteSell = some (book1, [], []) ∧
      book1.bids = bookOneAsk.bids ∧ book1.trades = bookOneAsk.trades ∧
      (∀ q, q ≠ 50000 → mapGet book1.asks q = mapGet bookOneAsk.asks q) ∧
      (mapGet bookOneAsk.asks 50000 = none → book1 = bookOneAsk) ∧
      (∀ os, mapGet bookOneAsk.asks 50000 = some os →
        mapGet book1.asks 50000 =
          (if (os.filter (fun o => decide (o.order_id ≠ deleteSell.order_id))).isEmpty
            then none
            else some (os.filter (fun o => decide (o.order_id ≠ deleteSell.order_id)))) ∧
        (deleteSell.order_id ∉ os.map (fun o => o.order_id) → book1 = bookOneAsk))) :=
  ⟨validBook_bookOneAsk, rfl, rfl, rfl,
    (@c9_delete bookOneAsk deleteSell 50000 validBook_bookOneAsk rfl rfl).2 rfl⟩

theorem c10_unknown_side_silent_noop_witness :
    weirdSide.type_op = "CREATE" ∧ weirdSide.side ≠ "BUY" ∧ weirdSide.side ≠ "SELL" ∧
    bookOneAsk.process_order weirdSide = some (bookOneAsk, [], []) ∧
    bookOneAsk.process_order badOp =
      some (bookOneAsk, [], ["Unknown order type: " ++ badOp.type_op]) :=
  ⟨rfl, by decide, by decide,
    (@c10_unknown_side_silent_noop bookOneAsk weirdSide rfl (by decide) (by decide)).1,
    (@c10_unknown_side_silent_noop bookOneAsk weirdSide rfl (by decide) (by decide)).2 badOp
      (by decide) (by decide)⟩

theorem c4_price_priority_witness :
    ValidBook bookOneAsk ∧ incomingBuy.amount.parse = some 2 ∧
    incomingBuy.limit_price.parse = some 50000 ∧ (0:ℚ) ≤ 2 ∧
    bookOneAsk.match_buy_order incomingBuy =
      some (⟨[], [], []⟩, [mkTrade "2" "1" "BTC/USDC" 50000 1]) ∧
    (∀ t ∈ [mkTrade "2" "1" "BTC/USDC" 50000 1], t.price ≤ 50000 ∧
      ∃ l ∈ bookOneAsk.asks, t.price = l.1 ∧ ∃ o ∈ l.2, o.order_id = t.maker_order_id) ∧
    List.Chain' (fun x y => x ≤ y)
      ([mkTrade "2" "1" "BTC/USDC" 50000 1].map (fun t => t.price)) := by
  have heval : bookOneAsk.match_buy_order incomingBuy =
      some (⟨[], [], []⟩, [mkTrade "2" "1" "BTC/USDC" 50000 1]) := by
    norm_num [OrderBook.match_buy_order, matchAskLevels, matchAskOrders, drainedCheck,
      levelDrained, removeFilledOrders, removePriceLevels, mapGet, mapSet, mapRemove,
      bookOneAsk, restingSell, incomingBuy, DecText.parse, mkTrade, min_def]
  have happ := (@c4_price_priority bookOneAsk incomingBuy 2 50000
    validBook_bookOneAsk rfl rfl (by norm_num)).1 _ _ heval
  exact ⟨validBook_bookOneAsk, rfl, rfl, by norm_num, heval, happ.1, happ.2⟩

theorem c5_time_priority_witness :
    matchAskOrders "2" "BTC/USDC" 50000 2 [restingSell] =
      some ([mkTrade "2" "1" "BTC/USDC" 50000 1], [restingSell], ["1"], 1) ∧
    [mkTrade "2" "1" "BTC/USDC" 50000 1].map (fun t => t.maker_order_id) =
      ([restingSell].take 1).map (fun o => o.order_id) ∧
    matchBidOrders "5" "BTC/USDC" 50000 2 [restingBuy] [(50000, [restingBuy])] [] =
      some ([mkTrade "5" "B1" "BTC/USDC" 50000 1], [(50000, [restingBuy])], ["B1"], 1) ∧
    [mkTrade "5" "B1" "BTC/USDC" 50000 1].map (fun t => t.maker_order_id) =
      ([restingBuy].take 1).map (fun o => o.order_id) ∧
    incomingBuy.limit_price.parse = some 50000 ∧
    bookOneAsk.add_order incomingBuy =
      some ⟨[(50000, [incomingBuy])], bookOneAsk.asks, []⟩ ∧
    incomingBuy.side = "BUY" ∧ SortedKeys bookOneAsk.bids ∧
    mapGet (⟨[(50000, [incomingBuy])], bookOneAsk.asks, []⟩ : OrderBook).bids 50000 =
      some ((mapGet bookOneAsk.bids 50000).getD [] ++ [incomingBuy]) := by
  have h1 : matchAskOrders "2" "BTC/USDC" 50000 2 [restingSell] =
      some ([mkTrade "2" "1" "BTC/USDC" 50000 1], [restingSell], ["1"], 1) := by
    norm_num [matchAskOrders, restingSell, DecText.parse, mkTrade, min_def]
  have h2 : matchBidOrders "5" "BTC/USDC" 50000 2 [restingBuy] [(50000, [restingBuy])] [] =
      some ([mkTrade "5" "B1" "BTC/USDC" 50000 1], [(50000, [restingBuy])], ["B1"], 1) := by
    norm_num [matchBidOrders, writeBackBid, mapGet, mapSet, restingBuy, DecText.parse,
      mkTrade, min_def]
  have h3 : bookOneAsk.add_order incomingBuy =
      some ⟨[(50000, [incomingBuy])], bookOneAsk.asks, []⟩ := rfl
  have hsb : SortedKeys bookOneAsk.bids := by
    simp [SortedKeys, keysOf, bookOneAsk]
  exact ⟨h1, c5_time_priority.1 _ _ _ _ _ _ _ _ _ h1,
    h2, c5_time_priority.2.1 _ _ _ _ _ _ _ _ _ _ _ h2,
    rfl, h3, rfl, hsb,
    (c5_time_priority.2.2 bookOneAsk incomingBuy 50000 _ rfl h3).1 rfl hsb⟩

theorem c6_trade_price_and_amount_witness :
    matchAskOrders "2" "BTC/USDC" 50000 2 [restingSell] =
      some ([mkTrade "2" "1" "BTC/USDC" 50000 1], [restingSell], ["1"], 1) ∧
    (0:ℕ) < 1 ∧
    (∃ o a, [restingSell].get? 0 = some o ∧ o.amount.parse = some a ∧
      [mkTrade "2" "1" "BTC/USDC" 50000 1].get? 0 =
        some (mkTrade "2" o.order_id "BTC/USDC" 50000
          (min (2 - sumAmounts ([mkTrade "2" "1" "BTC/USDC" 50000 1].take 0)) a))) ∧
    matchBidOrders "5" "BTC/USDC" 50000 2 [restingBuy] [(50000, [restingBuy])] [] =
      some ([mkTrade "5" "B1" "BTC/USDC" 50000 1], [(50000, [restingBuy])], ["B1"], 1) ∧
    (∃ bo b, [restingBuy].get? 0 = some bo ∧ bo.amount.parse = some b ∧
      [mkTrade "5" "B1" "BTC/USDC" 50000 1].get? 0 =
        some (mkTrade "5" bo.order_id "BTC/USDC" 50000
          (min (2 - sumAmounts ([mkTrade "5" "B1" "BTC/USDC" 50000 1].take 0)) b))) := by
  have h1 : matchAskOrders "2" "BTC/USDC" 50000 2 [restingSell] =
      some ([mkTrade "2" "1" "BTC/USDC" 50000 1], [restingSell], ["1"], 1) := by
    norm_num [matchAskOrders, restingSell, DecText.parse, mkTrade, min_def]
  have h2 : matchBidOrders "5" "BTC/USDC" 50000 2 [restingBuy] [(50000, [restingBuy])] [] =
      some ([mkTrade "5" "B1" "BTC/USDC" 50000 1], [(50000, [restingBuy])], ["B1"], 1) := by
    norm_num [matchBidOrders, writeBackBid, mapGet, mapSet, restingBuy, DecText.parse,
      mkTrade, min_def]
  exact ⟨h1, by norm_num,
    c6_trade_price_and_amount.1 _ _ _ _ _ _ _ _ _ h1 0 (by norm_num),
    h2, c6_trade_price_and_amount.2 _ _ _ _ _ _ _ _ _ _ _ h2 0 (by norm_num)⟩

end TradingEngine
